import Mathlib

/-!
Shallow embedding of the mina-indexer core (diff engine, ledger engine,
account/block stores) used to check the specification claims.

Sources embedded (paths relative to the repository root):
- `src/rust/src/ledger/diff/account.rs` (account diffs, fee aggregation)
- `src/rust/src/ledger/diff/mod.rs` (`LedgerDiff::from_precomputed`)
- `src/rust/src/ledger/coinbase.rs` (`Coinbase`, `CoinbaseKind`)
- `src/rust/src/ledger/mod.rs` (`Ledger::_apply_diff`, `Ledger::_unapply_diff`,
  saturating `Amount` arithmetic)
- `src/rust/src/store/account_store_impl.rs` (balance CFs, re-org walk)
- `src/rust/src/store/block_store_impl.rs` (`add_block` write sequence)
- `src/rust/src/constants.rs`

Rust `u64`/`u32` values are modelled as `Nat` with explicit `% 2 ^ 64`
where overflow matters; `saturating_sub` is `Nat` truncated subtraction;
fallible code returns `Option`/`Except`.  Types whose definitions are not
under `src/` (`Account`, `Command`, accessor results of
`PrecomputedBlock`, …) are modelled from the spec; each such definition
says so in its doc comment.

The `HashMap` iteration order used by the fee aggregation in
`AccountDiff::transaction_fees` / `from_snark_fees` is not determined by
the input (Rust's `std::collections::HashMap` is randomly seeded per
process), so the embedded functions take the iteration order of each hash
map as an explicit parameter: a list of keys that is (for faithful runs) a
permutation of the map's key set.
-/

/-- Canonical address string; equality and ordering are byte-lexicographic. -/
abbrev PK := String

/-- Modulus for Rust `u64` arithmetic. -/
def U64MOD : Nat := 2 ^ 64

/-- `u64::MAX`. -/
def U64MAX : Nat := U64MOD - 1

/-- Rust `u64::saturating_add` (from `impl Add for Amount`, `src/rust/src/ledger/mod.rs`). -/
def satAdd (a b : Nat) : Nat := min (a + b) U64MAX

/-- Rust `u64::saturating_sub` (from `impl Sub for Amount`); `Nat` subtraction is saturating. -/
def satSub (a b : Nat) : Nat := a - b

/-- Rust unchecked `u64` addition `+=` in release mode: wraps modulo `2 ^ 64`. -/
def wrapAdd (a b : Nat) : Nat := (a + b) % U64MOD

/-- `UpdateType` from `src/rust/src/ledger/diff/account.rs`:
`Debit` carries `Some(nonce)` for a user command, `None` for an internal command. -/
inductive UpdateType
  | Debit (nonce : Option Nat)
  | Credit
deriving DecidableEq, Repr

/-- `PaymentDiff` from `src/rust/src/ledger/diff/account.rs`. -/
structure PaymentDiff where
  update_type : UpdateType
  public_key : PK
  amount : Nat
deriving DecidableEq, Repr

/-- `DelegationDiff` from `src/rust/src/ledger/diff/account.rs`. -/
structure DelegationDiff where
  nonce : Nat
  delegator : PK
  delegate : PK
deriving DecidableEq, Repr

/-- `CoinbaseDiff` from `src/rust/src/ledger/diff/account.rs`. -/
structure CoinbaseDiff where
  public_key : PK
  amount : Nat
deriving DecidableEq, Repr

/-- `FailedTransactionNonceDiff` from `src/rust/src/ledger/diff/account.rs`. -/
structure FailedTransactionNonceDiff where
  public_key : PK
  nonce : Nat
deriving DecidableEq, Repr

/-- `AccountDiff` from `src/rust/src/ledger/diff/account.rs` (six variants;
the `CreateAccount` variant matched in `src/rust/src/ledger/mod.rs` does not
exist in this tree's enum and is therefore absent). -/
inductive AccountDiff
  | Payment (p : PaymentDiff)
  | Delegation (d : DelegationDiff)
  | Coinbase (c : CoinbaseDiff)
  | FeeTransfer (p : PaymentDiff)
  | FeeTransferViaCoinbase (p : PaymentDiff)
  | FailedTransactionNonce (f : FailedTransactionNonceDiff)
deriving DecidableEq, Repr

/-- `AccountDiff::public_key` from `src/rust/src/ledger/diff/account.rs`. -/
def AccountDiff.public_key : AccountDiff → PK
  | .Payment p => p.public_key
  | .Delegation d => d.delegator
  | .Coinbase c => c.public_key
  | .FeeTransfer p => p.public_key
  | .FeeTransferViaCoinbase p => p.public_key
  | .FailedTransactionNonce f => f.public_key

/-- Modelled from the spec: the `Payment` command payload
(`src/rust/src/command/mod.rs` is not under `src/`; shape per §3 of the spec
and the constructions in the `src/rust` test modules). -/
structure Payment where
  source : PK
  receiver : PK
  amount : Nat
  is_new_receiver_account : Bool
  nonce : Nat
deriving DecidableEq, Repr

/-- Modelled from the spec: the `Delegation` command payload. -/
structure Delegation where
  delegator : PK
  delegate : PK
  nonce : Nat
deriving DecidableEq, Repr

/-- Modelled from the spec: `Command` (payment or delegation). -/
inductive Command
  | Payment (p : Payment)
  | Delegation (d : Delegation)
deriving DecidableEq, Repr

/-- Modelled from the spec: a user command with status, reduced to the
accessor results used by the diff engine (`is_applied`, `to_command`,
`sender`, `nonce`, and the signed-command fee data `fee_payer_pk`/`fee`). -/
structure UserCommandWithStatus where
  is_applied : Bool
  cmd : Command
  sender : PK
  nonce : Nat
  fee_payer : PK
  fee : Nat
deriving DecidableEq, Repr

/-- Modelled from the spec: a SNARK work entry (prover and fee). -/
structure SnarkWorkSummary where
  prover : PK
  fee : Nat
deriving DecidableEq, Repr

/-- `CoinbaseFeeTransfer` from `src/rust/src/ledger/coinbase.rs`. -/
structure CoinbaseFeeTransfer where
  receiver_pk : PK
  fee : Nat
deriving DecidableEq, Repr

/-- `CoinbaseKind` from `src/rust/src/ledger/coinbase.rs`. -/
inductive CoinbaseKind
  | Zero
  | One (t : Option CoinbaseFeeTransfer)
  | Two (t0 : Option CoinbaseFeeTransfer) (t1 : Option CoinbaseFeeTransfer)
deriving DecidableEq, Repr

/-- Modelled from the spec: `PrecomputedBlock` is an external input that the
core treats opaquely except for accessors (§3); it is embedded as the record
of those accessor results. -/
structure PrecomputedBlock where
  state_hash : String
  previous_state_hash : String
  blockchain_length : Nat
  global_slot_since_genesis : Nat
  epoch_count : Nat
  genesis_state_hash : String
  block_creator : PK
  staged_ledger_hash : String
  coinbase_receiver : PK
  coinbase_receiver_balance : Option Nat
  supercharge_coinbase : Bool
  commands_pre_diff : List UserCommandWithStatus
  commands_post_diff : List UserCommandWithStatus
  pre_diff_coinbase : CoinbaseKind
  post_diff_coinbase : Option CoinbaseKind
  snarks : List SnarkWorkSummary
  accounts_created : List (PK × Nat) × Option PK
  active_public_keys : List PK
  all_public_keys : List PK
deriving DecidableEq, Repr

/-- Modelled from the spec: `PrecomputedBlock::commands` returns the
user commands of the staged-ledger pre-diff followed by those of the
post-diff. -/
def PrecomputedBlock.commands (b : PrecomputedBlock) : List UserCommandWithStatus :=
  b.commands_pre_diff ++ b.commands_post_diff

/-- `MAINNET_COINBASE_REWARD` from `src/rust/src/constants.rs`. -/
def MAINNET_COINBASE_REWARD : Nat := 720000000000

/-- `MAINNET_ACCOUNT_CREATION_FEE` from `src/rust/src/constants.rs`. -/
def MAINNET_ACCOUNT_CREATION_FEE : Nat := 1000000000

/-- `MAINNET_GENESIS_HASH` from `src/rust/src/constants.rs`. -/
def MAINNET_GENESIS_HASH : String := "3NKeMoncuHab5ScarV5ViyF16cJPT4taWNSaTLS64Dp67wuXigPZ"

/-- `Coinbase` from `src/rust/src/ledger/coinbase.rs`. -/
structure Coinbase where
  kind : CoinbaseKind
  receiver : PK
  supercharge : Bool
  is_new_account : Bool
  receiver_balance : Option Nat
deriving DecidableEq, Repr

/-- Alias for the `Coinbase` structure, usable inside the `AccountDiff`
namespace where `Coinbase` would resolve to the diff constructor. -/
abbrev CoinbaseT := Coinbase

/-- `CoinbaseKind::from_precomputed` from `src/rust/src/ledger/coinbase.rs`:
the pre-diff coinbase kind, followed by the post-diff kind when present. -/
def CoinbaseKind.from_precomputed (b : PrecomputedBlock) : List CoinbaseKind :=
  b.pre_diff_coinbase :: b.post_diff_coinbase.toList

/-- `Coinbase::from_precomputed` from `src/rust/src/ledger/coinbase.rs`.
The kind is `kind[0]` when fewer than two kinds exist, else `kind[1]`;
the construction always yields one or two kinds, so the indexing is total. -/
def Coinbase.from_precomputed (b : PrecomputedBlock) : Coinbase :=
  { kind := match CoinbaseKind.from_precomputed b with
      | [k] => k
      | _ :: k :: _ => k
      | [] => CoinbaseKind.Zero
    receiver := b.coinbase_receiver
    receiver_balance := b.coinbase_receiver_balance
    is_new_account := b.accounts_created.2.isSome
    supercharge := b.supercharge_coinbase }

/-- `Coinbase::amount` from `src/rust/src/ledger/coinbase.rs`. -/
def Coinbase.amount (c : Coinbase) : Nat :=
  if c.supercharge then 2 * MAINNET_COINBASE_REWARD else MAINNET_COINBASE_REWARD

/-- `Coinbase::fee_transfer` from `src/rust/src/ledger/coinbase.rs`:
for each attached fee transfer, a `Credit` to its receiver followed by a
`Debit(None)` of the coinbase receiver, both of the fee amount. -/
def Coinbase.fee_transfer (c : Coinbase) : List PaymentDiff :=
  let pair : CoinbaseFeeTransfer → List PaymentDiff := fun t =>
    [ { update_type := .Credit, public_key := t.receiver_pk, amount := t.fee },
      { update_type := .Debit none, public_key := c.receiver, amount := t.fee } ]
  match c.kind with
  | .Zero => []
  | .One t => (t.map pair).getD []
  | .Two t0 t1 => (t0.map pair).getD [] ++ (t1.map pair).getD []

/-- `Coinbase::is_coinbase_applied` from `src/rust/src/ledger/coinbase.rs`. -/
def Coinbase.is_coinbase_applied (c : Coinbase) : Bool :=
  match c.kind with
  | .Zero => false
  | _ => true

/-- `Coinbase::has_fee_transfer` from `src/rust/src/ledger/coinbase.rs`. -/
def Coinbase.has_fee_transfer (c : Coinbase) : Bool :=
  match c.kind with
  | .One (some _) => true
  | .Two (some _) _ => true
  | .Two _ (some _) => true
  | _ => false

/-- `AccountDiff::from_command` from `src/rust/src/ledger/diff/account.rs`:
a payment yields `[Credit(receiver), Debit(source, Some(nonce+1))]`, a
delegation yields one `Delegation` diff with `nonce+1`. -/
def AccountDiff.from_command : Command → List AccountDiff
  | .Payment p =>
      [ .Payment { update_type := .Credit, public_key := p.receiver, amount := p.amount },
        .Payment { update_type := .Debit (some (p.nonce + 1)), public_key := p.source,
                   amount := p.amount } ]
  | .Delegation d =>
      [ .Delegation { delegator := d.delegator, delegate := d.delegate, nonce := d.nonce + 1 } ]

/-- `AccountDiff::from_coinbase` from `src/rust/src/ledger/coinbase.rs` and
`src/rust/src/ledger/diff/account.rs`: the `Coinbase` diff followed by the
attached fee transfers re-tagged as `FeeTransferViaCoinbase`. -/
def AccountDiff.from_coinbase (c : CoinbaseT) : List AccountDiff :=
  AccountDiff.Coinbase { public_key := c.receiver, amount := c.amount }
    :: c.fee_transfer.map AccountDiff.FeeTransferViaCoinbase

/-- `Coinbase::as_account_diff` from `src/rust/src/ledger/coinbase.rs`. -/
def Coinbase.as_account_diff (c : Coinbase) : List AccountDiff :=
  if c.is_coinbase_applied then AccountDiff.from_coinbase c else []

/-- One `fee_map.entry(k).and_modify(|acc| *acc += f).or_insert(f)` step of the
fee aggregation in `src/rust/src/ledger/diff/account.rs`, on an association
list modelling the hash map's contents.  `+=` on `u64` wraps (release mode). -/
def upsertFee (m : List (PK × Nat)) (k : PK) (f : Nat) : List (PK × Nat) :=
  match m with
  | [] => [(k, f)]
  | (k0, v0) :: rest =>
      if k0 = k then (k0, wrapAdd v0 f) :: rest else (k0, v0) :: upsertFee rest k f

/-- The fee map built by `AccountDiff::transaction_fees`
(`src/rust/src/ledger/diff/account.rs`): per-fee-payer aggregation of
user-command fees. -/
def buildFeeMap (cmds : List UserCommandWithStatus) : List (PK × Nat) :=
  cmds.foldl (fun m c => upsertFee m c.fee_payer c.fee) []

/-- The fee map built by `AccountDiff::from_snark_fees`: per-prover
aggregation of SNARK work fees. -/
def buildSnarkFeeMap (snarks : List SnarkWorkSummary) : List (PK × Nat) :=
  snarks.foldl (fun m s => upsertFee m s.prover s.fee) []

/-- Iteration of a hash map in a given key order: the entries of `m` visited
in the order given by `order` (Rust's `HashMap::iter` visits each key once, in
an order not determined by the map's contents). -/
def iterOrder (m : List (PK × Nat)) (order : List PK) : List (PK × Nat) :=
  order.filterMap fun k => (List.lookup k m).map fun v => (k, v)

/-- A faithful iteration order for a hash map: a permutation of its key set. -/
def ValidOrder (m : List (PK × Nat)) (order : List PK) : Prop :=
  order.Perm (m.map Prod.fst)

instance (m : List (PK × Nat)) (order : List PK) : Decidable (ValidOrder m order) :=
  inferInstanceAs (Decidable (order.Perm (m.map Prod.fst)))

/-- `AccountDiff::transaction_fees` from `src/rust/src/ledger/diff/account.rs`:
aggregate user-command fees per fee payer, then for each non-zero aggregate
emit `FeeTransfer(coinbase_receiver, fee, Credit)` followed by
`FeeTransfer(payer, fee, Debit(None))`.  `order` is the hash map iteration
order of the run being modelled. -/
def AccountDiff.transaction_fees (coinbase_receiver : PK)
    (user_cmds : List UserCommandWithStatus) (order : List PK) : List AccountDiff :=
  (iterOrder (buildFeeMap user_cmds) order).flatMap fun kv =>
    if kv.2 > 0 then
      [ .FeeTransfer { update_type := .Credit, public_key := coinbase_receiver, amount := kv.2 },
        .FeeTransfer { update_type := .Debit none, public_key := kv.1, amount := kv.2 } ]
    else []

/-- `AccountDiff::from_transaction_fees` from
`src/rust/src/ledger/diff/account.rs`: transaction fees of the pre-diff
command set followed by those of the post-diff command set. -/
def AccountDiff.from_transaction_fees (b : PrecomputedBlock)
    (o1 o2 : List PK) : List AccountDiff :=
  AccountDiff.transaction_fees b.coinbase_receiver b.commands_pre_diff o1
    ++ AccountDiff.transaction_fees b.coinbase_receiver b.commands_post_diff o2

/-- `AccountDiff::from_snark_fees` from `src/rust/src/ledger/diff/account.rs`:
aggregate SNARK fees per prover, then for each non-zero aggregate emit
`FeeTransfer(prover, fee, Credit)` followed by
`FeeTransfer(coinbase_receiver, fee, Debit(None))`. -/
def AccountDiff.from_snark_fees (b : PrecomputedBlock) (o3 : List PK) : List AccountDiff :=
  (iterOrder (buildSnarkFeeMap b.snarks) o3).flatMap fun kv =>
    if kv.2 > 0 then
      [ .FeeTransfer { update_type := .Credit, public_key := kv.1, amount := kv.2 },
        .FeeTransfer { update_type := .Debit none, public_key := b.coinbase_receiver,
                       amount := kv.2 } ]
    else []

/-- `AccountDiff::from_block_fees` from `src/rust/src/ledger/diff/account.rs`:
transaction fees followed by SNARK fees. -/
def AccountDiff.from_block_fees (b : PrecomputedBlock)
    (o1 o2 o3 : List PK) : List AccountDiff :=
  AccountDiff.from_transaction_fees b o1 o2 ++ AccountDiff.from_snark_fees b o3

/-- Modelled from the spec: the derived total order on `Command` used by the
`account_diff_txns.sort()` call in `LedgerDiff::from_precomputed`
(`src/rust/src/command/mod.rs` is not under `src/`): payments sort before
delegations; payments compare lexicographically by source, receiver, amount,
nonce; delegations by delegator, delegate, nonce (spec §4.3). -/
def Command.le (a b : Command) : Bool :=
  match a, b with
  | .Payment p, .Payment q =>
      if p.source ≠ q.source then decide (p.source < q.source)
      else if p.receiver ≠ q.receiver then decide (p.receiver < q.receiver)
      else if p.amount ≠ q.amount then decide (p.amount < q.amount)
      else p.nonce ≤ q.nonce
  | .Payment _, .Delegation _ => true
  | .Delegation _, .Payment _ => false
  | .Delegation d, .Delegation e =>
      if d.delegator ≠ e.delegator then decide (d.delegator < e.delegator)
      else if d.delegate ≠ e.delegate then decide (d.delegate < e.delegate)
      else d.nonce ≤ e.nonce

/-- Insertion of a command into a sorted list (stable, keeps existing equal
elements first, like Rust's stable `sort`). -/
def insertCommand (c : Command) : List Command → List Command
  | [] => [c]
  | d :: rest => if Command.le d c then d :: insertCommand c rest else c :: d :: rest

/-- The `account_diff_txns.sort()` call of `LedgerDiff::from_precomputed`. -/
def sortCommands (l : List Command) : List Command :=
  l.foldr insertCommand []

/-- First index `n` such that the fee diff at `n` is `FeeTransfer(ft0)` and
the diff at `n + 1` is `FeeTransfer(ft1)` — the `position` scan of the
fee-transfer-via-coinbase rewrite in `src/rust/src/ledger/diff/mod.rs`.
The Rust scan indexes `account_diff_fees[n + 1]` unguardedly; here the
out-of-bounds access yields no match (the in-bounds safety of the original
is the subject of a separate theorem). -/
def matchIdx : List AccountDiff → PaymentDiff → PaymentDiff → Option Nat
  | [], _, _ => none
  | d :: rest, ft0, ft1 =>
      if (match d, rest with
          | .FeeTransfer f, .FeeTransfer g :: _ => f = ft0 && g = ft1
          | _, _ => false : Bool)
      then some 0
      else (matchIdx rest ft0 ft1).map (· + 1)

/-- The in-place fee-transfer-via-coinbase rewrite of
`LedgerDiff::from_precomputed` (`src/rust/src/ledger/diff/mod.rs`): the first
adjacent `FeeTransfer` pair equal to `coinbase.fee_transfer()` is re-tagged
as `FeeTransferViaCoinbase` in place. -/
def replace_ftvc (fees : List AccountDiff) (ft : List PaymentDiff) : List AccountDiff :=
  match ft with
  | ft0 :: ft1 :: _ =>
      match matchIdx fees ft0 ft1 with
      | none => fees
      | some i =>
          (fees.set i (.FeeTransferViaCoinbase ft0)).set (i + 1) (.FeeTransferViaCoinbase ft1)
  | _ => fees

/-- `LedgerDiff` from `src/rust/src/ledger/diff/mod.rs` (`new_pk_balances`
is a `BTreeMap` in the source; embedded as its association list). -/
structure LedgerDiff where
  state_hash : String
  staged_ledger_hash : String
  new_coinbase_receiver : Option PK
  public_keys_seen : List PK
  new_pk_balances : List (PK × Nat)
  account_diffs : List AccountDiff
deriving DecidableEq, Repr

/-- `LedgerDiff::from_precomputed` from `src/rust/src/ledger/diff/mod.rs`:
block fees, then sorted applied user commands expanded to diffs, failed
commands as `FailedTransactionNonce`, the fee-transfer-via-coinbase rewrite,
and the final concatenation `[txn diffs, coinbase?, fee diffs]`.
`o1 o2 o3` are the hash-map iteration orders of the pre-diff fee map, the
post-diff fee map and the SNARK fee map. -/
def LedgerDiff.from_precomputed (b : PrecomputedBlock) (o1 o2 o3 : List PK) : LedgerDiff :=
  let account_diff_fees := AccountDiff.from_block_fees b o1 o2 o3
  let txCmds : List Command :=
    sortCommands (((b.commands.filter (·.is_applied)).map (·.cmd)).filter fun c =>
      match c with
      | .Payment p => p.amount > 0
      | .Delegation _ => true)
  let account_diff_txns : List AccountDiff :=
    txCmds.flatMap AccountDiff.from_command
      ++ (b.commands.filter (fun t => ¬ t.is_applied)).map fun t =>
          .FailedTransactionNonce { public_key := t.sender, nonce := t.nonce }
  let coinbase := Coinbase.from_precomputed b
  let account_diff_fees :=
    if coinbase.has_fee_transfer then replace_ftvc account_diff_fees coinbase.fee_transfer
    else account_diff_fees
  let cbDiff : List AccountDiff :=
    if coinbase.is_coinbase_applied then (coinbase.as_account_diff.head?).toList else []
  { account_diffs := account_diff_txns ++ cbDiff ++ account_diff_fees
    new_pk_balances := b.accounts_created.1
    new_coinbase_receiver := b.accounts_created.2
    state_hash := b.state_hash
    staged_ledger_hash := b.staged_ledger_hash
    public_keys_seen := b.active_public_keys }

/-- Modelled from the spec: `Account` (§3) — `src/rust/src/ledger/account.rs`
is not under `src/`.  The optional timing data plays no role in any claim and
is omitted. -/
structure Account where
  public_key : PK
  balance : Nat
  nonce : Option Nat
  delegate : PK
deriving DecidableEq, Repr

/-- Modelled from the spec: `Account::empty` — zero balance, no nonce,
delegate defaults to self (§3). -/
def Account.empty (pk : PK) : Account :=
  { public_key := pk, balance := 0, nonce := none, delegate := pk }

/-- Modelled from the spec: `Account::from_payment` (§4.4) — a credit adds
the amount (saturating); a debit subtracts it (saturating) and a
`Debit(Some(nonce))` sets the account's nonce to that value while
`Debit(None)` leaves it untouched. -/
def Account.from_payment (a : Account) (p : PaymentDiff) : Account :=
  match p.update_type with
  | .Credit => { a with balance := satAdd a.balance p.amount }
  | .Debit n =>
      { a with balance := satSub a.balance p.amount
               nonce := match n with | some k => some k | none => a.nonce }

/-- The sign inversion of spec §4.4 unapply: credits become debits and vice
versa (a debit loses its nonce payload when inverted). -/
def UpdateType.invert : UpdateType → UpdateType
  | .Credit => .Debit none
  | .Debit _ => .Credit

/-- Modelled from the spec: `Account::from_payment_unapply` — apply the
payment with the update type inverted (§4.4). -/
def Account.from_payment_unapply (a : Account) (p : PaymentDiff) : Account :=
  Account.from_payment a { p with update_type := p.update_type.invert }

/-- Modelled from the spec: `Account::from_delegation` — set the delegate and
the nonce (§4.4). -/
def Account.from_delegation (a : Account) (delegate : PK) (nonce : Nat) : Account :=
  { a with delegate := delegate, nonce := some nonce }

/-- Modelled from the spec: `Account::from_delegation_unapply` — the call
site in `Ledger::_unapply_diff` passes the diff's own (new) delegate, not the
pre-image one (the source comment reads `TODO get previous delegate?`,
spec §9 records the same gap). -/
def Account.from_delegation_unapply (a : Account) (delegate : PK)
    (nonce : Option Nat) : Account :=
  { a with delegate := delegate, nonce := nonce }

/-- Modelled from the spec: `Account::from_coinbase` — credit the coinbase
amount (saturating). -/
def Account.from_coinbase (a : Account) (amount : Nat) : Account :=
  { a with balance := satAdd a.balance amount }

/-- Modelled from the spec: `Account::from_failed_transaction` — set the
nonce, no balance change (§4.4). -/
def Account.from_failed_transaction (a : Account) (nonce : Nat) : Account :=
  { a with nonce := some nonce }

/-- `Ledger` from `src/rust/src/ledger/mod.rs`: a map `PublicKey → Account`,
embedded as an association list read through `List.lookup` (first match). -/
def Ledger := List (PK × Account)
deriving DecidableEq, Repr

/-- `HashMap::remove`: drop the entry for a key. -/
def Ledger.lremove (l : Ledger) (pk : PK) : Ledger :=
  List.filter (fun kv => ¬ kv.1 = pk) l

/-- `HashMap::insert`: bind a key to an account (replacing any old binding). -/
def Ledger.lput (l : Ledger) (pk : PK) (a : Account) : Ledger :=
  (pk, a) :: Ledger.lremove l pk

/-- `Ledger` equality per `impl PartialEq for Ledger`
(`src/rust/src/ledger/mod.rs`): both key sets are traversed and the looked-up
accounts compared. -/
def Ledger.eqb (l1 l2 : Ledger) : Bool :=
  List.all l1 (fun kv => List.lookup kv.1 l1 = List.lookup kv.1 l2)
    && List.all l2 (fun kv => List.lookup kv.1 l1 = List.lookup kv.1 l2)

/-- The key pre-scan shared by `Ledger::_apply_diff` and
`Ledger::_unapply_diff`: every public key referenced by the diffs gets an
empty account if absent. -/
def Ledger.preScan (l : Ledger) (diffs : List AccountDiff) : Ledger :=
  diffs.foldl
    (fun acc d =>
      match List.lookup d.public_key acc with
      | some _ => acc
      | none => Ledger.lput acc d.public_key (Account.empty d.public_key))
    l

/-- The per-account action of the `Some(account_before)` branch of
`Ledger::_apply_diff` (`src/rust/src/ledger/mod.rs`).  The `assert_eq!` of
the delegation arm is modelled as failure (`none`). -/
def Ledger.applyAccountDiff (a : Account) : AccountDiff → Option Account
  | .Payment p => some (Account.from_payment a p)
  | .Delegation d =>
      if a.public_key = d.delegator then
        some (Account.from_delegation a d.delegate d.nonce)
      else none
  | .Coinbase c => some (Account.from_coinbase a c.amount)
  | .FeeTransfer p => some (Account.from_payment a p)
  | .FeeTransferViaCoinbase p => some (Account.from_payment a p)
  | .FailedTransactionNonce f => some (Account.from_failed_transaction a f.nonce)

/-- The per-account action of the `Some(account_before)` branch of
`Ledger::_unapply_diff`.  Note that the `Coinbase` arm of the source calls
the same `Account::from_coinbase` as apply (a credit), and the delegation arm
installs the diff's own delegate. -/
def Ledger.unapplyAccountDiff (a : Account) : AccountDiff → Option Account
  | .Payment p => some (Account.from_payment_unapply a p)
  | .Delegation d =>
      some (Account.from_delegation_unapply a d.delegate (some d.nonce))
  | .Coinbase c => some (Account.from_coinbase a c.amount)
  | .FeeTransfer p => some (Account.from_payment_unapply a p)
  | .FeeTransferViaCoinbase p => some (Account.from_payment_unapply a p)
  | .FailedTransactionNonce f => some (Account.from_failed_transaction a f.nonce)

/-- The diff loop of `Ledger::_apply_diff` / `_unapply_diff`.  The `None`
branch of the source returns from the whole function: `Ok(())` for a
`Coinbase` diff (skipping all remaining diffs — the `Bool` result records
this early exit) and an error for every other variant. -/
def Ledger.diffLoop (step : Account → AccountDiff → Option Account) :
    Ledger → List AccountDiff → Option (Ledger × Bool)
  | l, [] => some (l, false)
  | l, d :: rest =>
      match List.lookup d.public_key l with
      | some a => (step a d).bind fun a2 => Ledger.diffLoop step (Ledger.lput l d.public_key a2) rest
      | none =>
          match d with
          | .Coinbase _ => some (l, true)
          | _ => none

/-- The account-creation-fee loop at the end of `Ledger::_apply_diff`: for
each key of `new_pk_balances`, subtract `MAINNET_ACCOUNT_CREATION_FEE`
(saturating); the source marks the missing-account case `unreachable!`,
modelled as failure. -/
def Ledger.creationFees : Ledger → List (PK × Nat) → Option Ledger
  | l, [] => some l
  | l, (pk, _) :: rest =>
      match List.lookup pk l with
      | some a =>
          Ledger.creationFees
            (Ledger.lput l pk { a with balance := satSub a.balance MAINNET_ACCOUNT_CREATION_FEE })
            rest
      | none => none

/-- `Ledger::_apply_diff` from `src/rust/src/ledger/mod.rs`: pre-scan, diff
loop, then creation fees (skipped if the loop exited early through the
missing-coinbase-account return). -/
def Ledger.apply_diff (l : Ledger) (diff : LedgerDiff) : Option Ledger :=
  (Ledger.diffLoop Ledger.applyAccountDiff (Ledger.preScan l diff.account_diffs)
      diff.account_diffs).bind
    fun le => if le.2 then some le.1 else Ledger.creationFees le.1 diff.new_pk_balances

/-- `Ledger::_unapply_diff` from `src/rust/src/ledger/mod.rs`: pre-scan and
diff loop; there is no creation-fee restoration. -/
def Ledger.unapply_diff (l : Ledger) (diff : LedgerDiff) : Option Ledger :=
  (Ledger.diffLoop Ledger.unapplyAccountDiff (Ledger.preScan l diff.account_diffs)
      diff.account_diffs).map Prod.fst

/-- Concrete coinbase-only precomputed block (no user commands, no SNARKs, a
plain `One(None)` coinbase, no accounts created): the C1 failing input.
All fee maps are empty, so the empty iteration orders are the faithful ones. -/
def c1Block : PrecomputedBlock :=
  { state_hash := "3NTest", previous_state_hash := "3NPrev", blockchain_length := 2,
    global_slot_since_genesis := 2, epoch_count := 0, genesis_state_hash := "3NGen",
    block_creator := "pkR", staged_ledger_hash := "jxS", coinbase_receiver := "pkR",
    coinbase_receiver_balance := some 720000000000, supercharge_coinbase := false,
    commands_pre_diff := [], commands_post_diff := [], pre_diff_coinbase := .One none,
    post_diff_coinbase := none, snarks := [], accounts_created := ([], none),
    active_public_keys := ["pkR"], all_public_keys := ["pkR"] }

/-- The ledger diff the diff engine produces for `c1Block`:
a single `Coinbase("pkR", 720000000000)` account diff. -/
def c1Diff : LedgerDiff := LedgerDiff.from_precomputed c1Block [] [] []

/-- C1: the apply/unapply round trip fails on the code.  For the empty ledger
`L = []` and the diff `D = c1Diff` produced from a precomputed block,
`unapply(apply(L, D), D)` is defined but differs from `L` under the source's
own `Ledger` equality: `Ledger::_unapply_diff` re-credits the coinbase
(its `Coinbase` arm calls the same `Account::from_coinbase` as apply), so the
receiver ends with balance 1440000000000 instead of being removed. -/
theorem c1_roundtrip_violated :
    ((Ledger.apply_diff ([] : Ledger) c1Diff).bind
        (fun l => Ledger.unapply_diff l c1Diff)).map (fun l => Ledger.eqb l [])
      = some false := by decide

/-- A ledger diff whose only account diff is a debit `Payment` on a public
key absent from the ledger it will be applied to: the C4 failing input. -/
def c4Diff : LedgerDiff :=
  { state_hash := "3NC4", staged_ledger_hash := "jxC4", new_coinbase_receiver := none,
    public_keys_seen := [], new_pk_balances := [],
    account_diffs :=
      [.Payment { update_type := .Debit (some 1), public_key := "pkX", amount := 5 }] }

/-- C4 counterexample: applying a debit that references an account absent
from the ledger does NOT fail with `AccountNotFound` — the pre-scan of
`Ledger::_apply_diff` creates an empty account first, and the debit then
saturates to balance 0 and sets the nonce. -/
theorem c4_missing_debit_succeeds :
    Ledger.apply_diff ([] : Ledger) c4Diff
      = some [("pkX", { public_key := "pkX", balance := 0, nonce := some 1,
                        delegate := "pkX" })] := by decide

/-- Well-formedness of a ledger map: every stored account carries the key it
is stored under (an invariant of every ledger the source constructs). -/
def LedgerWF (l : Ledger) : Prop :=
  ∀ pk a, List.lookup pk l = some a → a.public_key = pk

theorem lookup_lremove (l : Ledger) (k pk : PK) :
    List.lookup pk (Ledger.lremove l k) = if pk = k then none else List.lookup pk l := by
  induction l with
  | nil => simp [Ledger.lremove]
  | cons kv rest ih =>
      obtain ⟨k0, v0⟩ := kv
      by_cases h1 : k0 = k
      · have hstep : Ledger.lremove ((k0, v0) :: rest) k = Ledger.lremove rest k := by
          simp [Ledger.lremove, h1]
        rw [hstep, ih]
        by_cases h2 : pk = k
        · simp [h2]
        · have hne : (pk == k0) = false := by
            simp only [beq_eq_false_iff_ne, ne_eq]
            rw [h1]; exact h2
          simp [h2, List.lookup, hne]
      · have hstep : Ledger.lremove ((k0, v0) :: rest) k = (k0, v0) :: Ledger.lremove rest k := by
          simp [Ledger.lremove, h1]
        rw [hstep]
        by_cases h2 : pk = k0
        · have hb : (pk == k0) = true := beq_iff_eq.mpr h2
          have h3 : ¬ pk = k := by rw [h2]; exact h1
          simp [List.lookup, hb, h3]
        · have hb : (pk == k0) = false := by
            simp only [beq_eq_false_iff_ne, ne_eq]; exact h2
          simp [List.lookup, hb, ih]

theorem lookup_lput (l : Ledger) (k pk : PK) (a : Account) :
    List.lookup pk (Ledger.lput l k a) = if pk = k then some a else List.lookup pk l := by
  by_cases h : pk = k
  · simp [Ledger.lput, List.lookup, h]
  · have hb : (pk == k) = false := by
      simp only [beq_eq_false_iff_ne, ne_eq]; exact h
    simp [Ledger.lput, List.lookup, h, hb, lookup_lremove]

theorem ledgerWF_lput {l : Ledger} {k : PK} {a : Account}
    (hw : LedgerWF l) (ha : a.public_key = k) : LedgerWF (Ledger.lput l k a) := by
  intro pk b hb
  rw [lookup_lput] at hb
  by_cases h : pk = k
  · simp [h] at hb
    rw [← hb]; rw [ha, h]
  · simp [h] at hb
    exact hw pk b hb

theorem from_payment_public_key (a : Account) (p : PaymentDiff) :
    (Account.from_payment a p).public_key = a.public_key := by
  unfold Account.from_payment
  split <;> rfl

theorem applyAccountDiff_public_key {a a2 : Account} {d : AccountDiff}
    (h : Ledger.applyAccountDiff a d = some a2) : a2.public_key = a.public_key := by
  cases d with
  | Payment p =>
      simp [Ledger.applyAccountDiff] at h
      rw [← h]; exact from_payment_public_key a p
  | Delegation dd =>
      simp [Ledger.applyAccountDiff] at h
      rcases h with ⟨h1, h2⟩
      rw [← h2]; simp [Account.from_delegation]
  | Coinbase c =>
      simp [Ledger.applyAccountDiff] at h
      rw [← h]; simp [Account.from_coinbase]
  | FeeTransfer p =>
      simp [Ledger.applyAccountDiff] at h
      rw [← h]; exact from_payment_public_key a p
  | FeeTransferViaCoinbase p =>
      simp [Ledger.applyAccountDiff] at h
      rw [← h]; exact from_payment_public_key a p
  | FailedTransactionNonce f =>
      simp [Ledger.applyAccountDiff] at h
      rw [← h]; simp [Account.from_failed_transaction]

theorem applyAccountDiff_isSome {a : Account} {d : AccountDiff}
    (h : a.public_key = d.public_key) : (Ledger.applyAccountDiff a d).isSome := by
  cases d with
  | Delegation dd =>
      simp [AccountDiff.public_key] at h
      simp [Ledger.applyAccountDiff, h]
  | Payment p => simp [Ledger.applyAccountDiff]
  | Coinbase c => simp [Ledger.applyAccountDiff]
  | FeeTransfer p => simp [Ledger.applyAccountDiff]
  | FeeTransferViaCoinbase p => simp [Ledger.applyAccountDiff]
  | FailedTransactionNonce f => simp [Ledger.applyAccountDiff]

/-- One step of the pre-scan fold. -/
def preScanStep (l : Ledger) (d : AccountDiff) : Ledger :=
  match List.lookup d.public_key l with
  | some _ => l
  | none => Ledger.lput l d.public_key (Account.empty d.public_key)

theorem preScan_cons (l : Ledger) (d : AccountDiff) (rest : List AccountDiff) :
    Ledger.preScan l (d :: rest) = Ledger.preScan (preScanStep l d) rest := rfl

theorem preScanStep_presence {l : Ledger} {pk : PK} (d : AccountDiff)
    (h : (List.lookup pk l).isSome) : (List.lookup pk (preScanStep l d)).isSome := by
  unfold preScanStep
  cases hcase : List.lookup d.public_key l with
  | some _ => exact h
  | none =>
      rw [lookup_lput]
      by_cases he : pk = d.public_key
      · rw [if_pos he]; rfl
      · rw [if_neg he]; exact h

theorem preScan_presence_mono {l : Ledger} {pk : PK} (diffs : List AccountDiff)
    (h : (List.lookup pk l).isSome) :
    (List.lookup pk (Ledger.preScan l diffs)).isSome := by
  induction diffs generalizing l with
  | nil => exact h
  | cons d rest ih =>
      rw [preScan_cons]
      exact ih (preScanStep_presence d h)

theorem preScan_covers (l : Ledger) (diffs : List AccountDiff) :
    ∀ d ∈ diffs, (List.lookup d.public_key (Ledger.preScan l diffs)).isSome := by
  induction diffs generalizing l with
  | nil => intro d hd; cases hd
  | cons d0 rest ih =>
      intro d hd
      rw [preScan_cons]
      rcases List.mem_cons.mp hd with h | h
      · subst h
        apply preScan_presence_mono
        unfold preScanStep
        cases hcase : List.lookup d.public_key l with
        | some a => simp [hcase]
        | none => simp [lookup_lput]
      · exact ih (preScanStep l d0) d h

theorem preScan_wf {l : Ledger} (diffs : List AccountDiff) (hw : LedgerWF l) :
    LedgerWF (Ledger.preScan l diffs) := by
  induction diffs generalizing l with
  | nil => exact hw
  | cons d rest ih =>
      rw [preScan_cons]
      apply ih
      unfold preScanStep
      cases hcase : List.lookup d.public_key l with
      | some a => exact hw
      | none => exact ledgerWF_lput hw (by simp [Account.empty])

theorem diffLoop_apply_total {l : Ledger} {diffs : List AccountDiff}
    (hw : LedgerWF l) (hall : ∀ d ∈ diffs, (List.lookup d.public_key l).isSome) :
    ∃ l2, Ledger.diffLoop Ledger.applyAccountDiff l diffs = some (l2, false)
      ∧ LedgerWF l2
      ∧ (∀ pk, (List.lookup pk l).isSome → (List.lookup pk l2).isSome) := by
  induction diffs generalizing l with
  | nil => exact ⟨l, rfl, hw, fun _ h => h⟩
  | cons d rest ih =>
      have hd : (List.lookup d.public_key l).isSome := hall d (List.mem_cons_self d rest)
      cases hcase : List.lookup d.public_key l with
      | none => rw [hcase] at hd; cases hd
      | some a =>
          have hapk : a.public_key = d.public_key := hw d.public_key a hcase
          have hsome := applyAccountDiff_isSome (a := a) (d := d) hapk
          cases hstep : Ledger.applyAccountDiff a d with
          | none => rw [hstep] at hsome; cases hsome
          | some a2 =>
              have ha2 : a2.public_key = d.public_key := by
                rw [applyAccountDiff_public_key hstep]; exact hapk
              have hw2 : LedgerWF (Ledger.lput l d.public_key a2) := ledgerWF_lput hw ha2
              have hall2 : ∀ e ∈ rest,
                  (List.lookup e.public_key (Ledger.lput l d.public_key a2)).isSome := by
                intro e he
                rw [lookup_lput]
                by_cases hpk : e.public_key = d.public_key
                · rw [if_pos hpk]; rfl
                · rw [if_neg hpk]; exact hall e (List.mem_cons_of_mem d he)
              obtain ⟨l2, heq, hwl2, hmono⟩ := ih hw2 hall2
              refine ⟨l2, ?_, hwl2, ?_⟩
              · simp only [Ledger.diffLoop, hcase, hstep, Option.bind]
                exact heq
              · intro pk hpk
                apply hmono
                rw [lookup_lput]
                by_cases he : pk = d.public_key
                · rw [if_pos he]; rfl
                · rw [if_neg he]; exact hpk

theorem creationFees_total {l : Ledger} {pks : List (PK × Nat)}
    (hall : ∀ kv ∈ pks, (List.lookup kv.1 l).isSome) :
    (Ledger.creationFees l pks).isSome := by
  induction pks generalizing l with
  | nil => rfl
  | cons kv rest ih =>
      obtain ⟨pk, n⟩ := kv
      have hd : (List.lookup pk l).isSome := hall (pk, n) (List.mem_cons_self _ rest)
      cases hcase : List.lookup pk l with
      | none => rw [hcase] at hd; cases hd
      | some a =>
          simp only [Ledger.creationFees, hcase]
          apply ih
          intro kv2 h2
          rw [lookup_lput]
          by_cases he : kv2.1 = pk
          · rw [if_pos he]; rfl
          · rw [if_neg he]; exact hall kv2 (List.mem_cons_of_mem _ h2)

/-- C4, as the code has it: `Ledger::_apply_diff` never fails with
`AccountNotFound` or `InvalidDelegation`.  The pre-scan creates an empty
account for every public key referenced by the diff list, so debits and
payments on missing accounts succeed (saturating at balance 0), and the
delegation assertion compares against an account that carries its own key.
Apply succeeds on every well-formed ledger whenever each `new_pk_balances`
key is referenced by some account diff or already present in the ledger. -/
theorem c4_apply_total (L : Ledger) (D : LedgerDiff) (hw : LedgerWF L)
    (hcov : ∀ pk ∈ D.new_pk_balances.map Prod.fst,
      pk ∈ D.account_diffs.map AccountDiff.public_key ∨ (List.lookup pk L).isSome) :
    (Ledger.apply_diff L D).isSome := by
  have hw1 : LedgerWF (Ledger.preScan L D.account_diffs) := preScan_wf D.account_diffs hw
  have hall : ∀ d ∈ D.account_diffs,
      (List.lookup d.public_key (Ledger.preScan L D.account_diffs)).isSome :=
    preScan_covers L D.account_diffs
  obtain ⟨l2, heq, hwl2, hmono⟩ := diffLoop_apply_total hw1 hall
  have hcf : (Ledger.creationFees l2 D.new_pk_balances).isSome := by
    apply creationFees_total
    intro kv hkv
    have hpk := hcov kv.1 (List.mem_map.mpr ⟨kv, hkv, rfl⟩)
    apply hmono
    rcases hpk with hp | hp
    · rcases List.mem_map.mp hp with ⟨d, hd, hde⟩
      have := preScan_covers L D.account_diffs d hd
      rw [hde] at this; exact this
    · exact preScan_presence_mono D.account_diffs hp
  unfold Ledger.apply_diff
  rw [heq]
  simpa using hcf

/-- C4 witness: the amended statement instantiated at the empty ledger and
the concrete diff `c4Diff` (whose single account diff is a debit on a
missing account). -/
theorem c4_apply_total_witness :
    LedgerWF ([] : Ledger)
      ∧ (∀ pk ∈ c4Diff.new_pk_balances.map Prod.fst,
          pk ∈ c4Diff.account_diffs.map AccountDiff.public_key
            ∨ (List.lookup pk ([] : Ledger)).isSome)
      ∧ (Ledger.apply_diff ([] : Ledger) c4Diff).isSome :=
  ⟨fun pk a h => by simp [List.lookup] at h,
   by decide,
   c4_apply_total ([] : Ledger) c4Diff (fun pk a h => by simp [List.lookup] at h) (by decide)⟩

/-- `Amount + Amount` (`impl Add<Amount> for Amount`, `src/rust/src/ledger/mod.rs`):
`saturating_add`. -/
def amount_add (a b : Nat) : Nat := satAdd a b

/-- `Amount - Amount` (`impl Sub<Amount> for Amount`): `saturating_sub`. -/
def amount_sub (a b : Nat) : Nat := satSub a b

/-- `Amount + i64` (`impl Add<i64> for Amount`): saturating add of the
absolute value when positive, saturating sub when non-positive. -/
def amount_add_i64 (a : Nat) (rhs : Int) : Nat :=
  if rhs > 0 then satAdd a rhs.natAbs else satSub a rhs.natAbs

/-- The per-account balance adjustment of `AccountStore::update_account_balances`
(`src/rust/src/store/account_store_impl.rs`): for a positive signed amount the
source computes `balance + amount.unsigned_abs()` with the UNCHECKED `u64`
`+` (wraps in release mode); for a non-positive amount it computes
`balance.saturating_sub(amount.unsigned_abs())`. -/
def update_balance_value (balance : Nat) (amount : Int) : Nat :=
  if amount > 0 then wrapAdd balance amount.natAbs else satSub balance amount.natAbs

/-- The account-creation-fee deduction at the end of `Ledger::_apply_diff`:
`balance - MAINNET_ACCOUNT_CREATION_FEE` through the saturating `Sub`. -/
def creation_fee_deduction (balance : Nat) : Nat :=
  satSub balance MAINNET_ACCOUNT_CREATION_FEE

/-- C8 counterexample: the re-org balance credit path does NOT saturate.
At balance `u64::MAX` and signed delta `+1`, `update_account_balances`
computes `0` (wrapping), not `min(u64::MAX + 1, u64::MAX) = u64::MAX`
as the claim asserts for all additions performed by the core. -/
theorem c8_reorg_add_wraps :
    update_balance_value U64MAX 1 = 0
      ∧ update_balance_value U64MAX 1 ≠ min (U64MAX + 1) U64MAX := by
  constructor
  · decide
  · decide

/-- C8, as the code has it: the `Amount` operators and the creation-fee
deduction saturate exactly as claimed (`min(a + b, u64::MAX)` for addition,
`0` when subtracting more than the balance), and the re-org debit path
saturates — but the re-org credit path in `update_account_balances` is an
unchecked `u64` addition that wraps modulo `2^64` instead of saturating. -/
theorem c8_amount_arithmetic (a b : Nat) (d : Int) (ha : a < U64MOD) (hb : b < U64MOD) :
    amount_add a b = min (a + b) U64MAX
      ∧ (b > a → amount_sub a b = 0)
      ∧ (b ≤ a → amount_sub a b = a - b)
      ∧ amount_add_i64 a d = (if d > 0 then min (a + d.natAbs) U64MAX else a - d.natAbs)
      ∧ creation_fee_deduction a
          = (if a < MAINNET_ACCOUNT_CREATION_FEE then 0 else a - MAINNET_ACCOUNT_CREATION_FEE)
      ∧ (d ≤ 0 → update_balance_value a d = a - d.natAbs)
      ∧ (d > 0 → update_balance_value a d = (a + d.natAbs) % U64MOD) := by
  refine ⟨rfl, ?_, ?_, ?_, ?_, ?_, ?_⟩
  · intro h; unfold amount_sub satSub; omega
  · intro h; rfl
  · unfold amount_add_i64 satAdd satSub
    by_cases h : d > 0
    · simp [h]
    · simp [h]
  · unfold creation_fee_deduction satSub MAINNET_ACCOUNT_CREATION_FEE
    by_cases h : a < 1000000000
    · simp [h]; omega
    · simp [h]
  · intro h
    unfold update_balance_value satSub
    rw [if_neg (by omega)]
  · intro h
    unfold update_balance_value wrapAdd
    rw [if_pos h]

/-- C8 witness: the amended arithmetic statement at `a = 5`, `b = 3`,
`d = -4`. -/
theorem c8_amount_arithmetic_witness :
    (5 : Nat) < U64MOD ∧ (3 : Nat) < U64MOD
      ∧ (amount_add 5 3 = min (5 + 3) U64MAX
          ∧ ((3 : Nat) > 5 → amount_sub 5 3 = 0)
          ∧ ((3 : Nat) ≤ 5 → amount_sub 5 3 = 5 - 3)
          ∧ amount_add_i64 5 (-4)
              = (if (-4 : Int) > 0 then min (5 + (-4 : Int).natAbs) U64MAX
                 else 5 - (-4 : Int).natAbs)
          ∧ creation_fee_deduction 5
              = (if (5 : Nat) < MAINNET_ACCOUNT_CREATION_FEE then 0
                 else 5 - MAINNET_ACCOUNT_CREATION_FEE)
          ∧ ((-4 : Int) ≤ 0 → update_balance_value 5 (-4) = 5 - (-4 : Int).natAbs)
          ∧ ((-4 : Int) > 0 → update_balance_value 5 (-4) = (5 + (-4 : Int).natAbs) % U64MOD)) :=
  ⟨by decide, by decide, c8_amount_arithmetic 5 3 (-4) (by decide) (by decide)⟩

/-- The fees paid by one fee payer across a command list, in order. -/
def feesOf (pk : PK) (cmds : List UserCommandWithStatus) : List Nat :=
  (cmds.filter (fun c => c.fee_payer = pk)).map (·.fee)

/-- The aggregated user-command fee of one fee payer: the fold of its fees
under the wrapping `u64` addition the source's `+=` performs (`0` when the
payer pays no fee at all). -/
def userFeeAgg (pk : PK) (cmds : List UserCommandWithStatus) : Nat :=
  match feesOf pk cmds with
  | [] => 0
  | f :: fs => fs.foldl wrapAdd f

/-- The fees earned by one prover across a SNARK work list, in order. -/
def snarkFeesOf (pk : PK) (snarks : List SnarkWorkSummary) : List Nat :=
  (snarks.filter (fun s => s.prover = pk)).map (·.fee)

/-- The aggregated SNARK fee of one prover. -/
def snarkFeeAgg (pk : PK) (snarks : List SnarkWorkSummary) : Nat :=
  match snarkFeesOf pk snarks with
  | [] => 0
  | f :: fs => fs.foldl wrapAdd f

theorem lookup_upsertFee (m : List (PK × Nat)) (k k2 : PK) (f : Nat) :
    List.lookup k2 (upsertFee m k f)
      = if k2 = k then
          (match List.lookup k m with
           | some v => some (wrapAdd v f)
           | none => some f)
        else List.lookup k2 m := by
  induction m with
  | nil =>
      by_cases h : k2 = k
      · have hb : (k2 == k) = true := beq_iff_eq.mpr h
        simp [upsertFee, List.lookup, hb, h]
      · have hb : (k2 == k) = false := by
          simp only [beq_eq_false_iff_ne, ne_eq]; exact h
        simp [upsertFee, List.lookup, hb, h]
  | cons kv rest ih =>
      obtain ⟨k0, v0⟩ := kv
      by_cases h0 : k0 = k
      · subst h0
        by_cases h : k2 = k0
        · have hb : (k2 == k0) = true := beq_iff_eq.mpr h
          simp [upsertFee, List.lookup, hb, h]
        · have hb : (k2 == k0) = false := by
            simp only [beq_eq_false_iff_ne, ne_eq]; exact h
          simp [upsertFee, List.lookup, hb, h]
      · have hne : (k0 == k) = false := by
          simp only [beq_eq_false_iff_ne, ne_eq]; exact h0
        by_cases h : k2 = k0
        · subst h
          have h3 : ¬ k2 = k := fun hc => h0 (hc ▸ rfl)
          have hkk : (k2 == k) = false := by
            simp only [beq_eq_false_iff_ne, ne_eq]; exact h3
          simp [upsertFee, h0, List.lookup, h3, hkk]
        · have hb : (k2 == k0) = false := by
            simp only [beq_eq_false_iff_ne, ne_eq]; exact h
          have hk : (k == k0) = false := by
            simp only [beq_eq_false_iff_ne, ne_eq]; exact fun hc => h0 hc.symm
          simp [upsertFee, h0, List.lookup, hb, hk, ih]

/-- Characterization of a fee-aggregation fold (shared by the user-command
and SNARK fee maps): the looked-up value continues the fold of the key's
fee stream. -/
theorem lookup_feeFold {α : Type} (pk : PK) (entry : α → PK × Nat) :
    ∀ (cmds : List α) (m : List (PK × Nat)),
    List.lookup pk (cmds.foldl (fun acc c => upsertFee acc (entry c).1 (entry c).2) m)
      = match List.lookup pk m with
        | some v =>
            some (((cmds.filter (fun c => (entry c).1 = pk)).map (fun c => (entry c).2)).foldl
              wrapAdd v)
        | none =>
            match (cmds.filter (fun c => (entry c).1 = pk)).map (fun c => (entry c).2) with
            | [] => none
            | f :: fs => some (fs.foldl wrapAdd f) := by
  intro cmds
  induction cmds with
  | nil =>
      intro m
      cases h : List.lookup pk m <;> simp [List.filter, h]
  | cons c rest ih =>
      intro m
      by_cases hc : (entry c).1 = pk
      · have step : List.lookup pk (upsertFee m (entry c).1 (entry c).2)
            = (match List.lookup pk m with
               | some v => some (wrapAdd v (entry c).2)
               | none => some (entry c).2) := by
          rw [lookup_upsertFee]
          rw [if_pos hc.symm]
          rw [hc]
        simp only [List.foldl_cons, ih, step]
        cases h : List.lookup pk m with
        | some v => simp [List.filter, hc, h]
        | none => simp [List.filter, hc, h]
      · have step : List.lookup pk (upsertFee m (entry c).1 (entry c).2)
            = List.lookup pk m := by
          rw [lookup_upsertFee]
          rw [if_neg (fun hx => hc hx.symm)]
        simp only [List.foldl_cons, ih, step]
        cases h : List.lookup pk m with
        | some v => simp [List.filter, hc, h]
        | none => simp [List.filter, hc, h]

theorem lookup_buildFeeMap (pk : PK) (cmds : List UserCommandWithStatus) :
    List.lookup pk (buildFeeMap cmds)
      = match feesOf pk cmds with
        | [] => none
        | f :: fs => some (fs.foldl wrapAdd f) := by
  have := lookup_feeFold pk (fun c => (c.fee_payer, c.fee)) cmds []
  simpa [buildFeeMap, feesOf, List.lookup] using this

theorem lookup_buildSnarkFeeMap (pk : PK) (snarks : List SnarkWorkSummary) :
    List.lookup pk (buildSnarkFeeMap snarks)
      = match snarkFeesOf pk snarks with
        | [] => none
        | f :: fs => some (fs.foldl wrapAdd f) := by
  have := lookup_feeFold pk (fun s => (s.prover, s.fee)) snarks []
  simpa [buildSnarkFeeMap, snarkFeesOf, List.lookup] using this

theorem flatMap_iterOrder {β : Type} (m : List (PK × Nat)) (order : List PK)
    (g : PK × Nat → List β) :
    (iterOrder m order).flatMap g
      = order.flatMap fun k =>
          match List.lookup k m with
          | some v => g (k, v)
          | none => [] := by
  induction order with
  | nil => rfl
  | cons k rest ih =>
      unfold iterOrder at ih ⊢
      cases h : List.lookup k m with
      | some v => simp [List.filterMap_cons, h, List.flatMap_cons, ih]
      | none => simp [List.filterMap_cons, h, List.flatMap_cons, ih]

theorem lookup_none_iff_not_key {m : List (PK × Nat)} {pk : PK} :
    List.lookup pk m = none ↔ pk ∉ m.map Prod.fst := by
  induction m with
  | nil => simp [List.lookup]
  | cons kv rest ih =>
      obtain ⟨k0, v0⟩ := kv
      by_cases h : pk = k0
      · have hb : (pk == k0) = true := beq_iff_eq.mpr h
        simp [List.lookup, hb, h]
      · have hb : (pk == k0) = false := by
          simp only [beq_eq_false_iff_ne, ne_eq]; exact h
        simp [List.lookup, hb, h, ih]

/-- C9 counterexample block: one SNARK work entry, prover `pv`, fee 7,
coinbase receiver `cbR`. -/
def c9Block : PrecomputedBlock :=
  { state_hash := "3NC9", previous_state_hash := "3NPrev", blockchain_length := 3,
    global_slot_since_genesis := 3, epoch_count := 0, genesis_state_hash := "3NGen",
    block_creator := "cbR", staged_ledger_hash := "jxC9", coinbase_receiver := "cbR",
    coinbase_receiver_balance := none, supercharge_coinbase := false,
    commands_pre_diff := [], commands_post_diff := [], pre_diff_coinbase := .One none,
    post_diff_coinbase := none, snarks := [{ prover := "pv", fee := 7 }],
    accounts_created := ([], none), active_public_keys := ["cbR", "pv"],
    all_public_keys := ["cbR", "pv"] }

/-- C9 counterexample: for a SNARK aggregate, the code credits the PROVER and
debits the coinbase receiver — not, as the claim states, a credit to the
coinbase receiver followed by a debit of the prover. -/
theorem c9_snark_direction_counterexample :
    ValidOrder (buildSnarkFeeMap c9Block.snarks) ["pv"]
      ∧ AccountDiff.from_snark_fees c9Block ["pv"]
          = [.FeeTransfer { update_type := .Credit, public_key := "pv", amount := 7 },
             .FeeTransfer { update_type := .Debit none, public_key := "cbR", amount := 7 }]
      ∧ AccountDiff.from_snark_fees c9Block ["pv"]
          ≠ [.FeeTransfer { update_type := .Credit, public_key := "cbR", amount := 7 },
             .FeeTransfer { update_type := .Debit none, public_key := "pv", amount := 7 }] := by
  refine ⟨?_, by decide, by decide⟩
  decide

/-- C9, as the code has it: for every faithful hash-map iteration order, each
fee payer with non-zero aggregated user-command fee produces exactly the pair
`FeeTransfer(coinbase_receiver, fee, Credit)` followed by
`FeeTransfer(payer, fee, Debit(None))`; each prover with non-zero aggregated
SNARK fee produces `FeeTransfer(prover, fee, Credit)` followed by
`FeeTransfer(coinbase_receiver, fee, Debit(None))` (credit to the prover, not
to the coinbase receiver); zero aggregates produce no diffs. -/
theorem c9_fee_transfer_pairs (b : PrecomputedBlock) (cmds : List UserCommandWithStatus)
    (o os : List PK)
    (ho : ValidOrder (buildFeeMap cmds) o)
    (hos : ValidOrder (buildSnarkFeeMap b.snarks) os) :
    AccountDiff.transaction_fees b.coinbase_receiver cmds o
        = o.flatMap (fun pk =>
            if userFeeAgg pk cmds > 0 then
              [ .FeeTransfer { update_type := .Credit, public_key := b.coinbase_receiver,
                               amount := userFeeAgg pk cmds },
                .FeeTransfer { update_type := .Debit none, public_key := pk,
                               amount := userFeeAgg pk cmds } ]
            else [])
      ∧ AccountDiff.from_snark_fees b os
          = os.flatMap (fun pk =>
              if snarkFeeAgg pk b.snarks > 0 then
                [ .FeeTransfer { update_type := .Credit, public_key := pk,
                                 amount := snarkFeeAgg pk b.snarks },
                  .FeeTransfer { update_type := .Debit none, public_key := b.coinbase_receiver,
                                 amount := snarkFeeAgg pk b.snarks } ]
              else []) := by
  constructor
  · unfold AccountDiff.transaction_fees
    rw [flatMap_iterOrder]
    apply List.flatMap_congr
    intro pk hpk
    have ho2 : o.Perm ((buildFeeMap cmds).map Prod.fst) := ho
    have hsome : List.lookup pk (buildFeeMap cmds) ≠ none := by
      intro hnone
      exact (lookup_none_iff_not_key.mp hnone) (ho2.mem_iff.mp hpk)
    cases hl : List.lookup pk (buildFeeMap cmds) with
    | none => exact absurd hl hsome
    | some v =>
        have hv : v = userFeeAgg pk cmds := by
          have := lookup_buildFeeMap pk cmds
          rw [hl] at this
          unfold userFeeAgg
          cases hf : feesOf pk cmds with
          | nil => rw [hf] at this; cases this
          | cons f fs =>
              rw [hf] at this
              simpa using this
        rw [hv]
  · unfold AccountDiff.from_snark_fees
    rw [flatMap_iterOrder]
    apply List.flatMap_congr
    intro pk hpk
    have hos2 : os.Perm ((buildSnarkFeeMap b.snarks).map Prod.fst) := hos
    have hsome : List.lookup pk (buildSnarkFeeMap b.snarks) ≠ none := by
      intro hnone
      exact (lookup_none_iff_not_key.mp hnone) (hos2.mem_iff.mp hpk)
    cases hl : List.lookup pk (buildSnarkFeeMap b.snarks) with
    | none => exact absurd hl hsome
    | some v =>
        have hv : v = snarkFeeAgg pk b.snarks := by
          have := lookup_buildSnarkFeeMap pk b.snarks
          rw [hl] at this
          unfold snarkFeeAgg
          cases hf : snarkFeesOf pk b.snarks with
          | nil => rw [hf] at this; cases this
          | cons f fs =>
              rw [hf] at this
              simpa using this
        rw [hv]

/-- C9 witness: the amended fee-pair statement instantiated at `c9Block` with
no user commands and the single-prover SNARK order. -/
theorem c9_fee_transfer_pairs_witness :
    ValidOrder (buildFeeMap []) []
      ∧ ValidOrder (buildSnarkFeeMap c9Block.snarks) ["pv"]
      ∧ (AccountDiff.transaction_fees c9Block.coinbase_receiver [] []
            = ([] : List PK).flatMap (fun pk =>
                if userFeeAgg pk [] > 0 then
                  [ .FeeTransfer { update_type := .Credit,
                                   public_key := c9Block.coinbase_receiver,
                                   amount := userFeeAgg pk [] },
                    .FeeTransfer { update_type := .Debit none, public_key := pk,
                                   amount := userFeeAgg pk [] } ]
                else [])
          ∧ AccountDiff.from_snark_fees c9Block ["pv"]
              = (["pv"] : List PK).flatMap (fun pk =>
                  if snarkFeeAgg pk c9Block.snarks > 0 then
                    [ .FeeTransfer { update_type := .Credit, public_key := pk,
                                     amount := snarkFeeAgg pk c9Block.snarks },
                      .FeeTransfer { update_type := .Debit none,
                                     public_key := c9Block.coinbase_receiver,
                                     amount := snarkFeeAgg pk c9Block.snarks } ]
                  else [])) :=
  ⟨by decide, by decide,
   c9_fee_transfer_pairs c9Block [] [] ["pv"] (by decide) (by decide)⟩

/-- The shape of every block fee list: a concatenation of two-element chunks,
each a `FeeTransfer` credit immediately followed by a `FeeTransfer`
debit (`Debit(None)`). -/
inductive FeePairList : List AccountDiff → Prop
  | nil : FeePairList []
  | pair (c d : PaymentDiff) (rest : List AccountDiff)
      (hc : c.update_type = .Credit) (hd : d.update_type = .Debit none)
      (ha : c.amount = d.amount) (h : FeePairList rest) :
      FeePairList (.FeeTransfer c :: .FeeTransfer d :: rest)

theorem feePairList_append {l1 l2 : List AccountDiff}
    (h1 : FeePairList l1) (h2 : FeePairList l2) : FeePairList (l1 ++ l2) := by
  induction h1 with
  | nil => exact h2
  | pair c d rest hc hd ha h ih => exact FeePairList.pair c d _ hc hd ha ih

theorem feePairList_flatMap {α : Type} (g : α → List AccountDiff) (l : List α)
    (hg : ∀ x ∈ l, FeePairList (g x)) : FeePairList (l.flatMap g) := by
  induction l with
  | nil => exact FeePairList.nil
  | cons x rest ih =>
      rw [List.flatMap_cons]
      exact feePairList_append (hg x (List.mem_cons_self x rest))
        (ih fun y hy => hg y (List.mem_cons_of_mem x hy))

theorem transaction_fees_pairList (cb : PK) (cmds : List UserCommandWithStatus)
    (o : List PK) : FeePairList (AccountDiff.transaction_fees cb cmds o) := by
  unfold AccountDiff.transaction_fees
  apply feePairList_flatMap
  intro kv _
  by_cases h : kv.2 > 0
  · rw [if_pos h]
    exact FeePairList.pair _ _ _ rfl rfl rfl FeePairList.nil
  · rw [if_neg h]
    exact FeePairList.nil

theorem from_snark_fees_pairList (b : PrecomputedBlock) (o : List PK) :
    FeePairList (AccountDiff.from_snark_fees b o) := by
  unfold AccountDiff.from_snark_fees
  apply feePairList_flatMap
  intro kv _
  by_cases h : kv.2 > 0
  · rw [if_pos h]
    exact FeePairList.pair _ _ _ rfl rfl rfl FeePairList.nil
  · rw [if_neg h]
    exact FeePairList.nil

theorem from_block_fees_pairList (b : PrecomputedBlock) (o1 o2 o3 : List PK) :
    FeePairList (AccountDiff.from_block_fees b o1 o2 o3) :=
  feePairList_append
    (feePairList_append (transaction_fees_pairList _ _ o1)
      (transaction_fees_pairList _ _ o2)) (from_snark_fees_pairList b o3)

theorem feePairList_credit_succ {l : List AccountDiff} (h : FeePairList l) :
    ∀ n p, l[n]? = some (.FeeTransfer p) → p.update_type = .Credit →
      n + 1 < l.length := by
  induction h with
  | nil => intro n p hp _; simp at hp
  | pair c d rest hc hd ha hrest ih =>
      intro n p hp hcred
      match n with
      | 0 => simp
      | 1 =>
          simp at hp
          rw [← hp] at hcred
          rw [hd] at hcred
          cases hcred
      | Nat.succ (Nat.succ k) =>
          have := ih k p (by simpa using hp) hcred
          simp only [List.length_cons]
          omega

theorem fee_transfer_length_two {c : Coinbase}
    (h : c.has_fee_transfer = true) : 2 ≤ c.fee_transfer.length := by
  unfold Coinbase.has_fee_transfer at h
  unfold Coinbase.fee_transfer
  cases hk : c.kind with
  | Zero => rw [hk] at h; cases h
  | One t =>
      cases t with
      | none => rw [hk] at h; cases h
      | some t0 => simp
  | Two t0 t1 =>
      cases t0 with
      | some x => cases t1 <;> simp
      | none =>
          cases t1 with
          | some y => simp
          | none => rw [hk] at h; cases h

theorem fee_transfer_head_credit {c : Coinbase} {p : PaymentDiff}
    (h : c.fee_transfer.head? = some p) : p.update_type = .Credit := by
  unfold Coinbase.fee_transfer at h
  cases hk : c.kind with
  | Zero => rw [hk] at h; cases h
  | One t =>
      rw [hk] at h
      cases t with
      | none => cases h
      | some t0 =>
          simp at h
          rw [← h]
  | Two t0 t1 =>
      rw [hk] at h
      cases t0 with
      | some x =>
          simp at h
          rw [← h]
      | none =>
          cases t1 with
          | none => cases h
          | some y =>
              simp at h
              rw [← h]

/-- C10: the fee-transfer-via-coinbase rewrite never indexes out of bounds.
When the coinbase carries a fee transfer, `Coinbase::fee_transfer()` has at
least two elements (so `fee_transfer[0]` and `fee_transfer[1]` are in
bounds), its first element is a `Credit`, and in the block fee list every
`FeeTransfer` credit — in particular any diff matching `fee_transfer[0]` —
sits at a position `n` with `n + 1` in bounds, because every credit is
emitted immediately followed by its paired debit. -/
theorem c10_ftvc_rewrite_in_bounds (b : PrecomputedBlock) (o1 o2 o3 : List PK)
    (h : (Coinbase.from_precomputed b).has_fee_transfer = true) :
    2 ≤ (Coinbase.from_precomputed b).fee_transfer.length
      ∧ (∀ p, (Coinbase.from_precomputed b).fee_transfer.head? = some p →
          p.update_type = .Credit)
      ∧ (∀ n p, (AccountDiff.from_block_fees b o1 o2 o3)[n]? = some (.FeeTransfer p) →
          p.update_type = .Credit →
          n + 1 < (AccountDiff.from_block_fees b o1 o2 o3).length) :=
  ⟨fee_transfer_length_two h,
   fun _ hp => fee_transfer_head_credit hp,
   feePairList_credit_succ (from_block_fees_pairList b o1 o2 o3)⟩

/-- C10 witness: the in-bounds statement at a concrete block whose coinbase
carries a fee transfer matching its aggregated SNARK fee. -/
def c10Block : PrecomputedBlock :=
  { state_hash := "3NC10", previous_state_hash := "3NPrev", blockchain_length := 4,
    global_slot_since_genesis := 4, epoch_count := 0, genesis_state_hash := "3NGen",
    block_creator := "cbR", staged_ledger_hash := "jxC10", coinbase_receiver := "cbR",
    coinbase_receiver_balance := none, supercharge_coinbase := false,
    commands_pre_diff := [], commands_post_diff := [],
    pre_diff_coinbase := .One (some { receiver_pk := "pv", fee := 7 }),
    post_diff_coinbase := none, snarks := [{ prover := "pv", fee := 7 }],
    accounts_created := ([], none), active_public_keys := ["cbR", "pv"],
    all_public_keys := ["cbR", "pv"] }

theorem c10_ftvc_rewrite_in_bounds_witness :
    (Coinbase.from_precomputed c10Block).has_fee_transfer = true
      ∧ (2 ≤ (Coinbase.from_precomputed c10Block).fee_transfer.length
          ∧ (∀ p, (Coinbase.from_precomputed c10Block).fee_transfer.head? = some p →
              p.update_type = .Credit)
          ∧ (∀ n p,
              (AccountDiff.from_block_fees c10Block [] [] ["pv"])[n]?
                  = some (.FeeTransfer p) →
              p.update_type = .Credit →
              n + 1 < (AccountDiff.from_block_fees c10Block [] [] ["pv"]).length)) :=
  ⟨by decide, c10_ftvc_rewrite_in_bounds c10Block [] [] ["pv"] (by decide)⟩

/-- The payment-like payload of an account diff: the `PaymentDiff` carried by
a `Payment`, `FeeTransfer` or `FeeTransferViaCoinbase` diff; `Delegation`,
`Coinbase` and `FailedTransactionNonce` diffs carry none. -/
def paymentLike : AccountDiff → Option PaymentDiff
  | .Payment p => some p
  | .FeeTransfer p => some p
  | .FeeTransferViaCoinbase p => some p
  | .Delegation _ => none
  | .Coinbase _ => none
  | .FailedTransactionNonce _ => none

/-- The signed amount of a payment-like diff: credits positive, debits
negative. -/
def signedAmount (p : PaymentDiff) : Int :=
  match p.update_type with
  | .Credit => (p.amount : Int)
  | .Debit _ => -(p.amount : Int)

/-- The sum of signed amounts over the `Payment` / `FeeTransfer` /
`FeeTransferViaCoinbase` diffs of a diff list. -/
def signedSum (l : List AccountDiff) : Int :=
  ((l.filterMap paymentLike).map signedAmount).sum

/-- Credit/debit pairing of a payment-like diff list: a concatenation of
two-element chunks, each a credit immediately followed by a debit of the
same amount. -/
inductive Paired : List PaymentDiff → Prop
  | nil : Paired []
  | pair (c d : PaymentDiff) (rest : List PaymentDiff)
      (hc : c.update_type = .Credit) (hd : ∃ n, d.update_type = .Debit n)
      (ha : c.amount = d.amount) (h : Paired rest) :
      Paired (c :: d :: rest)

theorem paired_append {l1 l2 : List PaymentDiff} (h1 : Paired l1) (h2 : Paired l2) :
    Paired (l1 ++ l2) := by
  induction h1 with
  | nil => exact h2
  | pair c d rest hc hd ha h ih => exact Paired.pair c d _ hc hd ha ih

theorem Paired.sum_zero {l : List PaymentDiff} (h : Paired l) :
    (l.map signedAmount).sum = 0 := by
  induction h with
  | nil => rfl
  | pair c d rest hc hd ha h ih =>
      obtain ⟨n, hn⟩ := hd
      simp only [List.map_cons, List.sum_cons, ih]
      simp only [signedAmount, hc, hn, ha]
      omega

theorem paired_filterMap_flatMap {α : Type} (g : α → List AccountDiff) (l : List α)
    (hg : ∀ x ∈ l, Paired ((g x).filterMap paymentLike)) :
    Paired ((l.flatMap g).filterMap paymentLike) := by
  induction l with
  | nil => exact Paired.nil
  | cons x rest ih =>
      rw [List.flatMap_cons, List.filterMap_append]
      exact paired_append (hg x (List.mem_cons_self x rest))
        (ih fun y hy => hg y (List.mem_cons_of_mem x hy))

theorem paired_from_command (c : Command) :
    Paired ((AccountDiff.from_command c).filterMap paymentLike) := by
  cases c with
  | Payment p =>
      exact Paired.pair _ _ _ rfl ⟨_, rfl⟩ rfl Paired.nil
  | Delegation d => exact Paired.nil

theorem paired_of_feePairList {l : List AccountDiff} (h : FeePairList l) :
    Paired (l.filterMap paymentLike) := by
  induction h with
  | nil => exact Paired.nil
  | pair c d rest hc hd ha h ih =>
      exact Paired.pair c d _ hc ⟨none, hd⟩ ha ih

theorem matchIdx_spec {l : List AccountDiff} {ft0 ft1 : PaymentDiff} {i : Nat}
    (h : matchIdx l ft0 ft1 = some i) :
    l[i]? = some (.FeeTransfer ft0) ∧ l[i + 1]? = some (.FeeTransfer ft1) := by
  induction l generalizing i with
  | nil => cases h
  | cons d rest ih =>
      unfold matchIdx at h
      split at h
      · next heq =>
          have hi : i = 0 := by
            have := Option.some.inj h
            omega
          subst hi
          split at heq
          · next f g tail =>
              simp at heq
              obtain ⟨h1, h2⟩ := heq
              subst h1; subst h2
              exact ⟨rfl, by simp⟩
          · next => cases heq
      · next heq =>
          cases hm : matchIdx rest ft0 ft1 with
          | none => rw [hm] at h; cases h
          | some j =>
              rw [hm] at h
              simp at h
              obtain ⟨h1, h2⟩ := ih hm
              rw [← h]
              exact ⟨by simpa using h1, by simpa using h2⟩

theorem filterMap_set_same {l : List AccountDiff} {i : Nat} {x y : AccountDiff}
    (hx : l[i]? = some x) (hxy : paymentLike y = paymentLike x) :
    (l.set i y).filterMap paymentLike = l.filterMap paymentLike := by
  induction l generalizing i with
  | nil => simp at hx
  | cons d rest ih =>
      match i with
      | 0 =>
          simp at hx
          subst hx
          rw [List.set_cons_zero]
          cases hc : paymentLike d with
          | none => simp [List.filterMap_cons, hxy, hc]
          | some p => simp [List.filterMap_cons, hxy, hc]
      | Nat.succ k =>
          have hx2 : rest[k]? = some x := by simpa using hx
          rw [List.set_cons_succ]
          cases hc : paymentLike d with
          | none => simp [List.filterMap_cons, hc, ih hx2]
          | some p => simp [List.filterMap_cons, hc, ih hx2]

theorem replace_ftvc_filterMap (fees : List AccountDiff) (ft : List PaymentDiff) :
    (replace_ftvc fees ft).filterMap paymentLike = fees.filterMap paymentLike := by
  cases ft with
  | nil => rfl
  | cons ft0 t =>
      cases t with
      | nil => rfl
      | cons ft1 rest =>
          have hred : replace_ftvc fees (ft0 :: ft1 :: rest)
              = (match matchIdx fees ft0 ft1 with
                 | none => fees
                 | some i =>
                     (fees.set i (.FeeTransferViaCoinbase ft0)).set (i + 1)
                       (.FeeTransferViaCoinbase ft1)) := rfl
          rw [hred]
          cases hm : matchIdx fees ft0 ft1 with
          | none => rfl
          | some i =>
              obtain ⟨h0, h1⟩ := matchIdx_spec hm
              have hkeep : (fees.set i (.FeeTransferViaCoinbase ft0))[i + 1]?
                  = some (.FeeTransfer ft1) := by
                rw [List.getElem?_set_ne (by omega)]
                exact h1
              show ((fees.set i (.FeeTransferViaCoinbase ft0)).set (i + 1)
                  (.FeeTransferViaCoinbase ft1)).filterMap paymentLike
                = fees.filterMap paymentLike
              rw [@filterMap_set_same _ _ _ (.FeeTransferViaCoinbase ft1) hkeep (by rfl),
                  @filterMap_set_same _ _ _ (.FeeTransferViaCoinbase ft0) h0 (by rfl)]

theorem filterMap_paymentLike_failed (l : List UserCommandWithStatus) :
    (l.map fun t =>
        AccountDiff.FailedTransactionNonce { public_key := t.sender, nonce := t.nonce
          }).filterMap paymentLike = [] := by
  induction l with
  | nil => rfl
  | cons t rest ih => simpa [List.filterMap_cons, paymentLike] using ih

theorem filterMap_paymentLike_cbDiff (c : Coinbase) :
    ((if c.is_coinbase_applied then (c.as_account_diff.head?).toList
      else []) : List AccountDiff).filterMap paymentLike = [] := by
  by_cases h : c.is_coinbase_applied
  · rw [if_pos h]
    unfold Coinbase.as_account_diff
    rw [if_pos h]
    rfl
  · rw [if_neg h]
    rfl

/-- C3: diff conservation.  For every precomputed block and every hash-map
iteration order, the payment-like diffs (`Payment` / `FeeTransfer` /
`FeeTransferViaCoinbase`) of the produced `LedgerDiff` decompose into
consecutive credit/debit pairs of identical amounts (`Coinbase` diffs are
excluded — single-sided), and the sum of signed amounts over them is zero. -/
theorem c3_diff_conservation (b : PrecomputedBlock) (o1 o2 o3 : List PK) :
    Paired ((LedgerDiff.from_precomputed b o1 o2 o3).account_diffs.filterMap paymentLike)
      ∧ signedSum (LedgerDiff.from_precomputed b o1 o2 o3).account_diffs = 0 := by
  have heq : (LedgerDiff.from_precomputed b o1 o2 o3).account_diffs
      = (((sortCommands (((b.commands.filter (·.is_applied)).map (·.cmd)).filter fun c =>
            match c with
            | .Payment p => p.amount > 0
            | .Delegation _ => true)).flatMap AccountDiff.from_command
          ++ (b.commands.filter (fun t => ¬ t.is_applied)).map (fun t =>
              AccountDiff.FailedTransactionNonce { public_key := t.sender, nonce := t.nonce }))
        ++ (if (Coinbase.from_precomputed b).is_coinbase_applied then
              ((Coinbase.from_precomputed b).as_account_diff.head?).toList
            else []))
        ++ (if (Coinbase.from_precomputed b).has_fee_transfer then
              replace_ftvc (AccountDiff.from_block_fees b o1 o2 o3)
                (Coinbase.from_precomputed b).fee_transfer
            else AccountDiff.from_block_fees b o1 o2 o3) := by
    unfold LedgerDiff.from_precomputed
    rfl
  have hpaired :
      Paired ((LedgerDiff.from_precomputed b o1 o2 o3).account_diffs.filterMap paymentLike) := by
    rw [heq, List.filterMap_append, List.filterMap_append, List.filterMap_append]
    apply paired_append
    · apply paired_append
      · apply paired_append
        · exact paired_filterMap_flatMap _ _ fun c _ => paired_from_command c
        · rw [filterMap_paymentLike_failed]
          exact Paired.nil
      · rw [filterMap_paymentLike_cbDiff]
        exact Paired.nil
    · by_cases h : (Coinbase.from_precomputed b).has_fee_transfer
      · rw [if_pos h, replace_ftvc_filterMap]
        exact paired_of_feePairList (from_block_fees_pairList b o1 o2 o3)
      · rw [if_neg h]
        exact paired_of_feePairList (from_block_fees_pairList b o1 o2 o3)
  exact ⟨hpaired, hpaired.sum_zero⟩

theorem list_decomp_two {α : Type} :
    ∀ (l : List α) (i : Nat) (x y : α), l[i]? = some x → l[i + 1]? = some y →
      l = l.take i ++ x :: y :: l.drop (i + 2) := by
  intro l
  induction l with
  | nil => intro i x y hx _; simp at hx
  | cons z t ih =>
      intro i x y hx hy
      match i with
      | 0 =>
          simp at hx
          subst hx
          match t, hy with
          | w :: t2, hy =>
              simp at hy
              subst hy
              rfl
      | Nat.succ k =>
          have hx2 : t[k]? = some x := by simpa using hx
          have hy2 : t[k + 1]? = some y := by simpa using hy
          have := ih k x y hx2 hy2
          simp only [List.take_succ_cons, List.drop_succ_cons, List.cons_append]
          rw [← this]

theorem set_two_decomp {α : Type} :
    ∀ (l : List α) (i : Nat) (x y a b : α), l[i]? = some x → l[i + 1]? = some y →
      (l.set i a).set (i + 1) b = l.take i ++ a :: b :: l.drop (i + 2) := by
  intro l
  induction l with
  | nil => intro i x y a b hx _; simp at hx
  | cons z t ih =>
      intro i x y a b hx hy
      match i with
      | 0 =>
          simp at hx
          subst hx
          match t, hy with
          | w :: t2, hy =>
              simp at hy
              subst hy
              rfl
      | Nat.succ k =>
          have hx2 : t[k]? = some x := by simpa using hx
          have hy2 : t[k + 1]? = some y := by simpa using hy
          have := ih k x y a b hx2 hy2
          simp only [List.set_cons_succ, List.take_succ_cons, List.drop_succ_cons,
            List.cons_append]
          rw [this]

theorem middle_two_perm {α : Type} (T D : List α) (a b : α) :
    (T ++ a :: b :: D).Perm (a :: b :: (T ++ D)) := by
  have h1 : (T ++ a :: b :: D).Perm (a :: (T ++ b :: D)) := List.perm_middle
  apply h1.trans
  exact (List.perm_middle : (T ++ b :: D).Perm (b :: (T ++ D))).cons a

/-- A block-fee chunk: empty (zero aggregate) or a `FeeTransfer` credit
followed by a `FeeTransfer` debit. -/
def GoodBlock (bl : List AccountDiff) : Prop :=
  bl = [] ∨ ∃ c d : PaymentDiff,
    bl = [.FeeTransfer c, .FeeTransfer d]
      ∧ c.update_type = .Credit ∧ d.update_type = .Debit none

/-- The fee diffs of `AccountDiff::from_block_fees`, organized as the list of
chunks each map entry contributes. -/
def feeBlocks (b : PrecomputedBlock) (o1 o2 o3 : List PK) : List (List AccountDiff) :=
  (iterOrder (buildFeeMap b.commands_pre_diff) o1).map (fun kv =>
      if kv.2 > 0 then
        [ .FeeTransfer { update_type := .Credit, public_key := b.coinbase_receiver,
                         amount := kv.2 },
          .FeeTransfer { update_type := .Debit none, public_key := kv.1, amount := kv.2 } ]
      else [])
    ++ (iterOrder (buildFeeMap b.commands_post_diff) o2).map (fun kv =>
        if kv.2 > 0 then
          [ .FeeTransfer { update_type := .Credit, public_key := b.coinbase_receiver,
                           amount := kv.2 },
            .FeeTransfer { update_type := .Debit none, public_key := kv.1, amount := kv.2 } ]
        else [])
    ++ (iterOrder (buildSnarkFeeMap b.snarks) o3).map (fun kv =>
        if kv.2 > 0 then
          [ .FeeTransfer { update_type := .Credit, public_key := kv.1, amount := kv.2 },
            .FeeTransfer { update_type := .Debit none, public_key := b.coinbase_receiver,
                           amount := kv.2 } ]
        else [])

theorem from_block_fees_eq_flatten (b : PrecomputedBlock) (o1 o2 o3 : List PK) :
    AccountDiff.from_block_fees b o1 o2 o3 = (feeBlocks b o1 o2 o3).flatten := by
  unfold AccountDiff.from_block_fees AccountDiff.from_transaction_fees
    AccountDiff.transaction_fees AccountDiff.from_snark_fees feeBlocks
  simp only [List.flatten_append, List.flatMap_def]

theorem feeBlocks_good (b : PrecomputedBlock) (o1 o2 o3 : List PK) :
    ∀ bl ∈ feeBlocks b o1 o2 o3, GoodBlock bl := by
  intro bl hbl
  unfold feeBlocks at hbl
  rcases List.mem_append.mp hbl with h | h
  · rcases List.mem_append.mp h with h2 | h2
    all_goals
      rcases List.mem_map.mp h2 with ⟨kv, _, hkv⟩
      by_cases hf : kv.2 > 0
      · right
        rw [← hkv, if_pos hf]
        exact ⟨_, _, rfl, rfl, rfl⟩
      · left
        rw [← hkv, if_neg hf]
  · rcases List.mem_map.mp h with ⟨kv, _, hkv⟩
    by_cases hf : kv.2 > 0
    · right
      rw [← hkv, if_pos hf]
      exact ⟨_, _, rfl, rfl, rfl⟩
    · left
      rw [← hkv, if_neg hf]

theorem feeBlocks_perm (b : PrecomputedBlock) {o1 o2 o3 o1b o2b o3b : List PK}
    (h1 : o1.Perm o1b) (h2 : o2.Perm o2b) (h3 : o3.Perm o3b) :
    (feeBlocks b o1 o2 o3).Perm (feeBlocks b o1b o2b o3b) := by
  unfold feeBlocks
  exact (((h1.filterMap _).map _).append (((h2.filterMap _).map _))).append
    ((h3.filterMap _).map _)

theorem matchIdx_cons_debit {d : PaymentDiff} {ft0 ft1 : PaymentDiff}
    (hft : ft0.update_type = .Credit) (hd : d.update_type = .Debit none)
    (L : List AccountDiff) :
    matchIdx (.FeeTransfer d :: L) ft0 ft1 = (matchIdx L ft0 ft1).map (· + 1) := by
  have hne : d ≠ ft0 := by
    intro hcontra
    rw [hcontra, hft] at hd
    cases hd
  cases L with
  | nil => rfl
  | cons a tail =>
      cases a with
      | FeeTransfer g =>
          show (if (decide (d = ft0) && decide (g = ft1)) = true then some 0
                else (matchIdx (AccountDiff.FeeTransfer g :: tail) ft0 ft1).map (· + 1))
              = (matchIdx (AccountDiff.FeeTransfer g :: tail) ft0 ft1).map (· + 1)
          rw [if_neg (by simp [hne])]
      | Payment p => rfl
      | Delegation dd => rfl
      | Coinbase c => rfl
      | FeeTransferViaCoinbase p => rfl
      | FailedTransactionNonce f => rfl

theorem matchIdx_flatten_isSome_iff {ft0 ft1 : PaymentDiff}
    (hft : ft0.update_type = .Credit) :
    ∀ (Bs : List (List AccountDiff)), (∀ bl ∈ Bs, GoodBlock bl) →
      ((matchIdx Bs.flatten ft0 ft1).isSome
        ↔ [AccountDiff.FeeTransfer ft0, AccountDiff.FeeTransfer ft1] ∈ Bs) := by
  intro Bs
  induction Bs with
  | nil =>
      intro _
      simp [matchIdx]
  | cons bl rest ih =>
      intro hgood
      have hblg := hgood bl (List.mem_cons_self bl rest)
      have ihr := ih fun x hx => hgood x (List.mem_cons_of_mem bl hx)
      rcases hblg with hnil | ⟨c, d, hbl, hc, hd⟩
      · subst hnil
        rw [List.flatten_cons, List.nil_append, ihr]
        constructor
        · intro h; exact List.mem_cons_of_mem _ h
        · intro h
          rcases List.mem_cons.mp h with h2 | h2
          · cases h2
          · exact h2
      · subst hbl
        rw [List.flatten_cons]
        have e1 : matchIdx
            (AccountDiff.FeeTransfer c :: AccountDiff.FeeTransfer d :: rest.flatten) ft0 ft1
            = if (c = ft0 && d = ft1 : Bool) then some 0
              else (matchIdx (AccountDiff.FeeTransfer d :: rest.flatten) ft0 ft1).map
                (· + 1) := rfl
        have hflat : ([AccountDiff.FeeTransfer c, AccountDiff.FeeTransfer d] : List AccountDiff)
            ++ rest.flatten
            = AccountDiff.FeeTransfer c :: AccountDiff.FeeTransfer d :: rest.flatten := rfl
        rw [hflat, e1]
        by_cases hcd : (c = ft0 && d = ft1 : Bool) = true
        · rw [if_pos hcd]
          simp at hcd
          obtain ⟨h1, h2⟩ := hcd
          subst h1; subst h2
          simp
        · rw [if_neg hcd]
          rw [matchIdx_cons_debit hft hd]
          simp only [Option.isSome_map']
          rw [ihr]
          constructor
          · intro h; exact List.mem_cons_of_mem _ h
          · intro h
            rcases List.mem_cons.mp h with h2 | h2
            · exfalso
              apply hcd
              have hc2 : c = ft0 := by
                have := congrArg (fun l => l[0]?) h2.symm
                simpa using this
              have hd2 : d = ft1 := by
                have := congrArg (fun l => l[1]?) h2.symm
                simpa using this
              simp [hc2, hd2]
            · exact h2

theorem replace_ftvc_eq (fees : List AccountDiff) (ft0 ft1 : PaymentDiff)
    (rest : List PaymentDiff) :
    replace_ftvc fees (ft0 :: ft1 :: rest)
      = match matchIdx fees ft0 ft1 with
        | none => fees
        | some i =>
            (fees.set i (.FeeTransferViaCoinbase ft0)).set (i + 1)
              (.FeeTransferViaCoinbase ft1) := rfl

theorem matched_decomp {l : List AccountDiff} {ft0 ft1 : PaymentDiff} {i : Nat}
    (hm : matchIdx l ft0 ft1 = some i) :
    ((l.set i (.FeeTransferViaCoinbase ft0)).set (i + 1)
        (.FeeTransferViaCoinbase ft1)).Perm
      (AccountDiff.FeeTransferViaCoinbase ft0 :: AccountDiff.FeeTransferViaCoinbase ft1 ::
        (l.take i ++ l.drop (i + 2)))
      ∧ l.Perm (AccountDiff.FeeTransfer ft0 :: AccountDiff.FeeTransfer ft1 ::
          (l.take i ++ l.drop (i + 2))) := by
  obtain ⟨h0, h1⟩ := matchIdx_spec hm
  constructor
  · rw [set_two_decomp l i _ _ _ _ h0 h1]
    exact middle_two_perm _ _ _ _
  · conv => lhs; rw [list_decomp_two l i _ _ h0 h1]
    exact middle_two_perm _ _ _ _

theorem replace_ftvc_flatten_perm {BsA BsB : List (List AccountDiff)}
    (hgA : ∀ bl ∈ BsA, GoodBlock bl) (hp : BsA.Perm BsB) (ft : List PaymentDiff)
    (hft : ∀ p, ft.head? = some p → p.update_type = .Credit) :
    (replace_ftvc BsA.flatten ft).Perm (replace_ftvc BsB.flatten ft) := by
  have hgB : ∀ bl ∈ BsB, GoodBlock bl := fun bl hbl => hgA bl (hp.mem_iff.mpr hbl)
  cases ft with
  | nil => exact hp.flatten
  | cons ft0 t =>
      cases t with
      | nil => exact hp.flatten
      | cons ft1 rest =>
          have hfc : ft0.update_type = .Credit := hft ft0 rfl
          have hiffA := @matchIdx_flatten_isSome_iff ft0 ft1 hfc BsA hgA
          have hiffB := @matchIdx_flatten_isSome_iff ft0 ft1 hfc BsB hgB
          rw [replace_ftvc_eq, replace_ftvc_eq]
          cases hA : matchIdx BsA.flatten ft0 ft1 with
          | none =>
              have hmemA : [AccountDiff.FeeTransfer ft0, AccountDiff.FeeTransfer ft1] ∉ BsA := by
                rw [← hiffA, hA]
                simp
              have hB : matchIdx BsB.flatten ft0 ft1 = none := by
                cases hB2 : matchIdx BsB.flatten ft0 ft1 with
                | none => rfl
                | some j =>
                    exfalso
                    apply hmemA
                    apply hp.mem_iff.mpr
                    apply hiffB.mp
                    rw [hB2]; rfl
              rw [hB]
              exact hp.flatten
          | some i =>
              have hmemA : [AccountDiff.FeeTransfer ft0, AccountDiff.FeeTransfer ft1] ∈ BsA := by
                apply hiffA.mp
                rw [hA]; rfl
              have hBsome : (matchIdx BsB.flatten ft0 ft1).isSome = true :=
                hiffB.mpr (hp.mem_iff.mp hmemA)
              cases hB : matchIdx BsB.flatten ft0 ft1 with
              | none => rw [hB] at hBsome; cases hBsome
              | some j =>
                  show ((BsA.flatten.set i (.FeeTransferViaCoinbase ft0)).set (i + 1)
                      (.FeeTransferViaCoinbase ft1)).Perm
                    ((BsB.flatten.set j (.FeeTransferViaCoinbase ft0)).set (j + 1)
                      (.FeeTransferViaCoinbase ft1))
                  obtain ⟨hsetA, hlA⟩ := matched_decomp hA
                  obtain ⟨hsetB, hlB⟩ := matched_decomp hB
                  have hrem : (BsA.flatten.take i ++ BsA.flatten.drop (i + 2)).Perm
                      (BsB.flatten.take j ++ BsB.flatten.drop (j + 2)) := by
                    have hchain := (hlA.symm.trans hp.flatten).trans hlB
                    exact (hchain.cons_inv).cons_inv
                  exact (hsetA.trans ((hrem.cons _).cons _)).trans hsetB.symm

theorem from_precomputed_diffs_decomp (b : PrecomputedBlock) (o1 o2 o3 : List PK) :
    (LedgerDiff.from_precomputed b o1 o2 o3).account_diffs
      = (((sortCommands (((b.commands.filter (·.is_applied)).map (·.cmd)).filter fun c =>
            match c with
            | .Payment p => p.amount > 0
            | .Delegation _ => true)).flatMap AccountDiff.from_command
          ++ (b.commands.filter (fun t => ¬ t.is_applied)).map (fun t =>
              AccountDiff.FailedTransactionNonce { public_key := t.sender, nonce := t.nonce }))
        ++ (if (Coinbase.from_precomputed b).is_coinbase_applied then
              ((Coinbase.from_precomputed b).as_account_diff.head?).toList
            else []))
        ++ (if (Coinbase.from_precomputed b).has_fee_transfer then
              replace_ftvc (AccountDiff.from_block_fees b o1 o2 o3)
                (Coinbase.from_precomputed b).fee_transfer
            else AccountDiff.from_block_fees b o1 o2 o3) := by
  unfold LedgerDiff.from_precomputed
  rfl

theorem fees_section_perm (b : PrecomputedBlock) {o1 o2 o3 o1b o2b o3b : List PK}
    (h1 : o1.Perm o1b) (h2 : o2.Perm o2b) (h3 : o3.Perm o3b) :
    (if (Coinbase.from_precomputed b).has_fee_transfer then
        replace_ftvc (AccountDiff.from_block_fees b o1 o2 o3)
          (Coinbase.from_precomputed b).fee_transfer
      else AccountDiff.from_block_fees b o1 o2 o3).Perm
      (if (Coinbase.from_precomputed b).has_fee_transfer then
          replace_ftvc (AccountDiff.from_block_fees b o1b o2b o3b)
            (Coinbase.from_precomputed b).fee_transfer
        else AccountDiff.from_block_fees b o1b o2b o3b) := by
  by_cases h : (Coinbase.from_precomputed b).has_fee_transfer
  · rw [if_pos h, if_pos h, from_block_fees_eq_flatten, from_block_fees_eq_flatten]
    exact replace_ftvc_flatten_perm (feeBlocks_good b o1 o2 o3)
      (feeBlocks_perm b h1 h2 h3) _ (fun p hp => fee_transfer_head_credit hp)
  · rw [if_neg h, if_neg h, from_block_fees_eq_flatten, from_block_fees_eq_flatten]
    exact (feeBlocks_perm b h1 h2 h3).flatten

/-- C2, as the code has it: the derivation of a `LedgerDiff` from a
precomputed block is deterministic only up to the hash-map iteration orders
of the fee aggregation.  Two runs with (possibly different) faithful
iteration orders produce account-diff lists that are permutations of each
other — the user-command prefix, the coinbase diff, and all non-diff fields
are identical — but not necessarily equal lists (see the counterexample). -/
theorem c2_from_precomputed_perm (b : PrecomputedBlock) (o1 o2 o3 o1b o2b o3b : List PK)
    (h1 : ValidOrder (buildFeeMap b.commands_pre_diff) o1)
    (h1b : ValidOrder (buildFeeMap b.commands_pre_diff) o1b)
    (h2 : ValidOrder (buildFeeMap b.commands_post_diff) o2)
    (h2b : ValidOrder (buildFeeMap b.commands_post_diff) o2b)
    (h3 : ValidOrder (buildSnarkFeeMap b.snarks) o3)
    (h3b : ValidOrder (buildSnarkFeeMap b.snarks) o3b) :
    (LedgerDiff.from_precomputed b o1 o2 o3).account_diffs.Perm
        (LedgerDiff.from_precomputed b o1b o2b o3b).account_diffs
      ∧ (LedgerDiff.from_precomputed b o1 o2 o3).state_hash
          = (LedgerDiff.from_precomputed b o1b o2b o3b).state_hash
      ∧ (LedgerDiff.from_precomputed b o1 o2 o3).staged_ledger_hash
          = (LedgerDiff.from_precomputed b o1b o2b o3b).staged_ledger_hash
      ∧ (LedgerDiff.from_precomputed b o1 o2 o3).new_coinbase_receiver
          = (LedgerDiff.from_precomputed b o1b o2b o3b).new_coinbase_receiver
      ∧ (LedgerDiff.from_precomputed b o1 o2 o3).public_keys_seen
          = (LedgerDiff.from_precomputed b o1b o2b o3b).public_keys_seen
      ∧ (LedgerDiff.from_precomputed b o1 o2 o3).new_pk_balances
          = (LedgerDiff.from_precomputed b o1b o2b o3b).new_pk_balances := by
  have p1 : o1.Perm o1b :=
    (h1 : o1.Perm ((buildFeeMap b.commands_pre_diff).map Prod.fst)).trans
      (h1b : o1b.Perm ((buildFeeMap b.commands_pre_diff).map Prod.fst)).symm
  have p2 : o2.Perm o2b :=
    (h2 : o2.Perm ((buildFeeMap b.commands_post_diff).map Prod.fst)).trans
      (h2b : o2b.Perm ((buildFeeMap b.commands_post_diff).map Prod.fst)).symm
  have p3 : o3.Perm o3b :=
    (h3 : o3.Perm ((buildSnarkFeeMap b.snarks).map Prod.fst)).trans
      (h3b : o3b.Perm ((buildSnarkFeeMap b.snarks).map Prod.fst)).symm
  refine ⟨?_, rfl, rfl, rfl, rfl, rfl⟩
  rw [from_precomputed_diffs_decomp, from_precomputed_diffs_decomp]
  exact List.Perm.append_left _ (fees_section_perm b p1 p2 p3)

/-- A zero-amount applied payment carrying a fee, used for the C2
counterexample (zero-amount payments are dropped from the user-command
diffs, so only the fee transfers remain). -/
def c2Cmd (payer : PK) (fee : Nat) : UserCommandWithStatus :=
  { is_applied := true
    cmd := .Payment { source := payer, receiver := "rcv", amount := 0,
                      is_new_receiver_account := false, nonce := 0 }
    sender := payer, nonce := 0, fee_payer := payer, fee := fee }

/-- C2 counterexample block: two user commands with distinct fee payers
(`p1` pays 3, `p2` pays 5), no coinbase, no SNARKs. -/
def c2Block : PrecomputedBlock :=
  { state_hash := "3NC2", previous_state_hash := "3NPrev", blockchain_length := 5,
    global_slot_since_genesis := 5, epoch_count := 0, genesis_state_hash := "3NGen",
    block_creator := "cbR", staged_ledger_hash := "jxC2", coinbase_receiver := "cbR",
    coinbase_receiver_balance := none, supercharge_coinbase := false,
    commands_pre_diff := [c2Cmd "p1" 3, c2Cmd "p2" 5], commands_post_diff := [],
    pre_diff_coinbase := .Zero, post_diff_coinbase := none, snarks := [],
    accounts_created := ([], none), active_public_keys := ["p1", "p2", "cbR"],
    all_public_keys := ["p1", "p2", "cbR"] }

/-- C2 counterexample: two runs over the same block, both with faithful
hash-map iteration orders, produce different account-diff lists (the two
fee-transfer pairs come out in opposite orders), so `from_precomputed` is
not a function of the block alone and two runs are not byte-identical. -/
theorem c2_order_counterexample :
    ValidOrder (buildFeeMap c2Block.commands_pre_diff) ["p1", "p2"]
      ∧ ValidOrder (buildFeeMap c2Block.commands_pre_diff) ["p2", "p1"]
      ∧ LedgerDiff.from_precomputed c2Block ["p1", "p2"] [] []
          ≠ LedgerDiff.from_precomputed c2Block ["p2", "p1"] [] [] :=
  ⟨by decide, by decide, by decide⟩

/-- C2 witness: the permutation statement instantiated at `c2Block` with the
two concrete iteration orders of the counterexample. -/
theorem c2_from_precomputed_perm_witness :
    ValidOrder (buildFeeMap c2Block.commands_pre_diff) ["p1", "p2"]
      ∧ ValidOrder (buildFeeMap c2Block.commands_post_diff) []
      ∧ ValidOrder (buildSnarkFeeMap c2Block.snarks) []
      ∧ ValidOrder (buildFeeMap c2Block.commands_pre_diff) ["p2", "p1"]
      ∧ ((LedgerDiff.from_precomputed c2Block ["p1", "p2"] [] []).account_diffs.Perm
            (LedgerDiff.from_precomputed c2Block ["p2", "p1"] [] []).account_diffs
          ∧ (LedgerDiff.from_precomputed c2Block ["p1", "p2"] [] []).state_hash
              = (LedgerDiff.from_precomputed c2Block ["p2", "p1"] [] []).state_hash
          ∧ (LedgerDiff.from_precomputed c2Block ["p1", "p2"] [] []).staged_ledger_hash
              = (LedgerDiff.from_precomputed c2Block ["p2", "p1"] [] []).staged_ledger_hash
          ∧ (LedgerDiff.from_precomputed c2Block ["p1", "p2"] [] []).new_coinbase_receiver
              = (LedgerDiff.from_precomputed c2Block ["p2", "p1"] [] []).new_coinbase_receiver
          ∧ (LedgerDiff.from_precomputed c2Block ["p1", "p2"] [] []).public_keys_seen
              = (LedgerDiff.from_precomputed c2Block ["p2", "p1"] [] []).public_keys_seen
          ∧ (LedgerDiff.from_precomputed c2Block ["p1", "p2"] [] []).new_pk_balances
              = (LedgerDiff.from_precomputed c2Block ["p2", "p1"] [] []).new_pk_balances) :=
  ⟨by decide, by decide, by decide, by decide,
   c2_from_precomputed_perm c2Block ["p1", "p2"] [] [] ["p2", "p1"] [] []
     (by decide) (by decide) (by decide) (by decide) (by decide) (by decide)⟩

/-- The slice of the block store read by
`AccountStore::reorg_account_balance_updates`
(`src/rust/src/store/account_store_impl.rs`): the `block_height`,
`block_parent_hash` and `account_balance_updates` column families.  The
per-block balance-update payloads are opaque to the traversal and modelled
as lists of opaque identifiers. -/
structure BlockStoreModel where
  heights : List (String × Nat)
  parents : List (String × String)
  updates : List (String × List Nat)
deriving DecidableEq, Repr

/-- `BlockStore::get_block_height` (column-family read). -/
def BlockStoreModel.get_block_height (s : BlockStoreModel) (h : String) : Option Nat :=
  List.lookup h s.heights

/-- `BlockStore::get_block_parent_hash` (column-family read). -/
def BlockStoreModel.get_block_parent_hash (s : BlockStoreModel) (h : String) : Option String :=
  List.lookup h s.parents

/-- `AccountStore::get_block_balance_updates` (column-family read). -/
def BlockStoreModel.get_block_balance_updates (s : BlockStoreModel) (h : String) :
    Option (List Nat) :=
  List.lookup h s.updates

/-- The `genesis_state_hashes` vector of `reorg_account_balance_updates`. -/
def genesis_state_hashes : List String := [MAINNET_GENESIS_HASH]

/-- The first loop of `reorg_account_balance_updates`: bring `b` (the new
tip) back `bLen - aLen` steps, accumulating its balance updates into the
apply list; a failed `unwrap`/`expect` is `none`. -/
def alignLoop (s : BlockStoreModel) : Nat → String → List Nat → Option (String × List Nat)
  | 0, b, ap => some (b, ap)
  | k + 1, b, ap =>
      if genesis_state_hashes.contains b then some (b, ap)
      else
        match s.get_block_balance_updates b, s.get_block_parent_hash b with
        | some us, some p => alignLoop s k p (ap ++ us)
        | _, _ => none

/-- The `while a != b && !genesis.contains(a)` lockstep loop of
`reorg_account_balance_updates`.  `aPrev`/`bPrev` are the parent hashes the
source computes before the loop and re-computes (with `expect`) at the end
of every iteration.  The loop in the source has no termination guarantee of
its own, so the embedding carries fuel; exhausted fuel — like a failed
`expect`/`unwrap` — is `none`. -/
def lockstepLoop (s : BlockStoreModel) :
    Nat → String → String → String → String → List Nat → List Nat →
      Option (List Nat × List Nat)
  | 0, _, _, _, _, _, _ => none
  | k + 1, a, b, aPrev, bPrev, unap, ap =>
      if a ≠ b ∧ genesis_state_hashes.contains a = false then
        match s.get_block_balance_updates a, s.get_block_balance_updates b with
        | some ua, some ub =>
            match s.get_block_parent_hash aPrev, s.get_block_parent_hash bPrev with
            | some aP2, some bP2 =>
                lockstepLoop s k aPrev bPrev aP2 bP2 (unap ++ ua) (ap ++ ub)
            | _, _ => none
        | _, _ => none
      else some (unap, ap)

/-- `AccountStore::reorg_account_balance_updates` from
`src/rust/src/store/account_store_impl.rs`: align the new tip down to the
old tip's height, then walk both sides in lockstep to the common ancestor;
returns `(apply.reverse(), unapply)`.  Every `expect`/`unwrap` on a missing
row is `none`. -/
def reorg_account_balance_updates (fuel : Nat) (s : BlockStoreModel)
    (old_best_tip new_best_tip : String) : Option (List Nat × List Nat) :=
  match s.get_block_height old_best_tip, s.get_block_height new_best_tip with
  | some aLen, some bLen =>
      match alignLoop s (bLen - aLen) new_best_tip [] with
      | none => none
      | some (b1, ap) =>
          match s.get_block_parent_hash old_best_tip, s.get_block_parent_hash b1 with
          | some aPrev, some bPrev =>
              match lockstepLoop s fuel old_best_tip b1 aPrev bPrev [] ap with
              | some (unap, ap2) => some (ap2.reverse, unap)
              | none => none
          | _, _ => none
  | _, _ => none

/-- The C5 failing store: genesis `G` (the mainnet genesis hash) with
children `hA1` (old side, extended by `hA2`) and `hB1` (new side).
The old tip `hA2` has height 3, the new tip `hB1` height 2; their common
ancestor is `G` at height 1. -/
def c5Store : BlockStoreModel :=
  { heights := [(MAINNET_GENESIS_HASH, 1), ("hA1", 2), ("hA2", 3), ("hB1", 2)]
    parents := [(MAINNET_GENESIS_HASH, "hP0"), ("hA1", MAINNET_GENESIS_HASH),
                ("hA2", "hA1"), ("hB1", MAINNET_GENESIS_HASH)]
    updates := [(MAINNET_GENESIS_HASH, [0]), ("hA1", [1]), ("hA2", [2]), ("hB1", [3])] }

/-- C5: the re-org walk mishandles an old tip that is higher than the new
tip.  The height-alignment loop only walks the NEW tip down
(`b_length.saturating_sub(a_length)` iterations), so with `old = hA2`
(height 3) and `new = hB1` (height 2) the lockstep walk starts at unequal
heights, never meets the common ancestor `G`, wrongly consumes the genesis
block's own balance updates, and then panics (`expect("b has a parent")`)
looking up the parent of the block before genesis — for every fuel bound.
The spec's §4.7 pseudocode has the symmetric `while height(a) > height(b)`
loop the code lacks. -/
theorem c5_old_tip_higher_panics :
    ∀ fuel : Nat, reorg_account_balance_updates fuel c5Store "hA2" "hB1" = none := by
  intro fuel
  match fuel with
  | 0 => rfl
  | 1 => rfl
  | Nat.succ (Nat.succ k) => rfl

/-- Keys of the block store, as tagged values standing for the byte strings
the source hand-encodes (`state_hash`/pk strings, big-endian `u32`s,
`{u32 BE}{string}` prefixes, `"{a}-{n}"` utf-8 keys, fixed singleton keys). -/
inductive KeyT
  | raw (s : String)
  | be32 (n : Nat)
  | u32str (n : Nat) (s : String)
  | strN (a : String) (n : Nat)
  | singleton (name : String)
deriving DecidableEq, Repr

/-- Values of the block store, as tagged stand-ins for the serialized bytes
the source writes (all serializations are injective in the data shown). -/
inductive ValT
  | blockRecord (state_hash : String)
  | hashV (s : String)
  | u32 (n : Nat)
  | pkV (s : String)
  | strV (s : String)
  | emptyV
  | versionV
  | comparisonV (state_hash : String)
  | listV (ns : List Nat)
  | updatesV (state_hash : String)
  | commandsV (state_hash : String)
  | internalCmdsV (state_hash : String)
  | snarkV (state_hash : String)
  | eventV (state_hash : String) (blockchain_length : Nat)
deriving DecidableEq, Repr

/-- The block store: rows keyed by (column family name, key). -/
def Store6 := List ((String × KeyT) × ValT)
deriving DecidableEq, Repr

/-- `get_cf`. -/
def sget (s : Store6) (cf : String) (k : KeyT) : Option ValT :=
  List.lookup (cf, k) s

/-- `put_cf`: bind `(cf, k)` to `v`, replacing any old row. -/
def sput (s : Store6) (cf : String) (k : KeyT) (v : ValT) : Store6 :=
  ((cf, k), v) :: List.filter (fun kv => ¬ kv.1 = (cf, k)) s

/-- One engine write of `add_block`: a column family (statically known per
call site), plus the key and value, which may depend on reads of the current
store (the source's read-then-increment counters), and a guard for the
source's conditional puts.  A guarded-out op performs no engine call. -/
structure Op where
  cf : String
  key : Store6 → KeyT
  val : Store6 → ValT
  guard : Store6 → Bool

/-- Apply one write to the store. -/
def Op.apply (op : Op) (s : Store6) : Store6 :=
  if op.guard s then sput s op.cf (op.key s) (op.val s) else s

/-- An unconditional put of a store-independent row. -/
def putOp (cf : String) (k : KeyT) (v : ValT) : Op :=
  { cf := cf, key := fun _ => k, val := fun _ => v, guard := fun _ => true }

/-- Read a `u32` counter row, defaulting to 0 (`map_or(0, from_be_bytes)`). -/
def counter (s : Store6) (cf : String) (k : KeyT) : Nat :=
  match sget s cf k with
  | some (.u32 n) => n
  | _ => 0

/-- Read a `u32` list row, defaulting to empty. -/
def listRow (s : Store6) (cf : String) (k : KeyT) : List Nat :=
  match sget s cf k with
  | some (.listV ns) => ns
  | _ => []

/-- Sorted insertion used by `set_block_height_global_slot_pair`
(`push` then `sort`). -/
def natInsert (n : Nat) : List Nat → List Nat
  | [] => [n]
  | m :: rest => if m ≤ n then m :: natInsert n rest else n :: m :: rest

/-- The ordered engine-write sequence of `BlockStore::add_block`
(`src/rust/src/store/block_store_impl.rs`), after the duplicate check, with
each helper call expanded to its own `put_cf` calls in source order.
`add_user_commands`, `add_internal_commands`, `add_snark_work` and
`add_event` are not under `src/`; modelled from the spec (§4.1) as one write
per column family, the `NewBlock` event row plus its sequence-counter bump
coming last. -/
def add_block_core_ops (b : PrecomputedBlock) : List Op :=
  [ putOp "blocks" (.raw b.state_hash) (.blockRecord b.state_hash),
    putOp "block_epoch" (.raw b.state_hash) (.u32 b.epoch_count),
    { cf := "block_production_pk_epoch"
      key := fun _ => .u32str b.epoch_count b.block_creator
      val := fun s =>
        .u32 (counter s "block_production_pk_epoch" (.u32str b.epoch_count b.block_creator) + 1)
      guard := fun _ => true },
    { cf := "block_production_pk_total"
      key := fun _ => .raw b.block_creator
      val := fun s => .u32 (counter s "block_production_pk_total" (.raw b.block_creator) + 1)
      guard := fun _ => true },
    { cf := "block_production_epoch"
      key := fun _ => .be32 b.epoch_count
      val := fun s => .u32 (counter s "block_production_epoch" (.be32 b.epoch_count) + 1)
      guard := fun _ => true },
    { cf := "default"
      key := fun _ => .singleton "TOTAL_NUM_BLOCKS"
      val := fun s => .u32 (counter s "default" (.singleton "TOTAL_NUM_BLOCKS") + 1)
      guard := fun _ => true },
    putOp "block_comparison" (.raw b.state_hash) (.comparisonV b.state_hash),
    putOp "block_height" (.raw b.state_hash) (.u32 b.blockchain_length),
    putOp "block_parent_hash" (.raw b.state_hash) (.hashV b.previous_state_hash),
    putOp "block_genesis_state_hash" (.raw b.state_hash) (.hashV b.genesis_state_hash),
    { cf := "block_global_slot_to_heights"
      key := fun _ => .be32 b.global_slot_since_genesis
      val := fun s =>
        .listV (natInsert b.blockchain_length
          (listRow s "block_height_to_global_slots" (.be32 b.global_slot_since_genesis)))
      guard := fun s =>
        ¬ (listRow s "block_height_to_global_slots"
            (.be32 b.global_slot_since_genesis)).contains b.blockchain_length },
    { cf := "block_height_to_global_slots"
      key := fun _ => .be32 b.blockchain_length
      val := fun s =>
        .listV (natInsert b.global_slot_since_genesis
          (listRow s "block_global_slot_to_heights" (.be32 b.blockchain_length)))
      guard := fun s =>
        ¬ (listRow s "block_global_slot_to_heights"
            (.be32 b.blockchain_length)).contains b.global_slot_since_genesis },
    putOp "block_coinbase_receiver" (.raw b.state_hash) (.pkV b.coinbase_receiver),
    putOp "account_balance_updates" (.raw b.state_hash) (.updatesV b.state_hash),
    putOp "blocks_height_sort" (.u32str b.blockchain_length b.state_hash) .emptyV,
    putOp "blocks_global_slot_sort" (.u32str b.global_slot_since_genesis b.state_hash)
      .emptyV ]
  ++ b.all_public_keys.flatMap (fun pk =>
      [ { cf := "blocks"
          key := fun _ => .raw pk
          val := fun s => .u32 (counter s "blocks" (.raw pk) + 1)
          guard := fun _ => true },
        { cf := "blocks"
          key := fun s => .strN pk (counter s "blocks" (.raw pk))
          val := fun _ => .strV b.state_hash
          guard := fun _ => true } ])
  ++ [ { cf := "blocks_at_height"
         key := fun _ => .be32 b.blockchain_length
         val := fun s => .u32 (counter s "blocks_at_height" (.be32 b.blockchain_length) + 1)
         guard := fun _ => true },
       { cf := "blocks_at_height"
         key := fun s =>
           .strN (toString b.blockchain_length)
             (counter s "blocks_at_height" (.be32 b.blockchain_length))
         val := fun _ => .hashV b.state_hash
         guard := fun _ => true },
       { cf := "blocks_at_global_slot"
         key := fun _ => .be32 b.global_slot_since_genesis
         val := fun s =>
           .u32 (counter s "blocks_at_global_slot" (.be32 b.global_slot_since_genesis) + 1)
         guard := fun _ => true },
       { cf := "blocks_at_global_slot"
         key := fun s =>
           .strN (toString b.global_slot_since_genesis)
             (counter s "blocks_at_global_slot" (.be32 b.global_slot_since_genesis))
         val := fun _ => .hashV b.state_hash
         guard := fun _ => true },
       putOp "block_version" (.raw b.state_hash) .versionV,
       putOp "user_commands" (.raw b.state_hash) (.commandsV b.state_hash),
       putOp "internal_commands" (.raw b.state_hash) (.internalCmdsV b.state_hash),
       putOp "snark_work" (.raw b.state_hash) (.snarkV b.state_hash) ]

/-- Modelled from the spec: `add_event` (§4.1/§4.2, the event store is not
under `src/`) — append the `NewBlock` event row under the next sequence
number, then bump the sequence singleton. -/
def add_event_ops (b : PrecomputedBlock) : List Op :=
  [ { cf := "events"
      key := fun s => .be32 (counter s "default" (.singleton "next_event_seq"))
      val := fun _ => .eventV b.state_hash b.blockchain_length
      guard := fun _ => true },
    { cf := "default"
      key := fun _ => .singleton "next_event_seq"
      val := fun s => .u32 (counter s "default" (.singleton "next_event_seq") + 1)
      guard := fun _ => true } ]

/-- All engine writes of `add_block` in order: every other column family
first, the `NewBlock` event last (source comment: `add new block db event
only after all other data is added`). -/
def add_block_ops (b : PrecomputedBlock) : List Op :=
  add_block_core_ops b ++ add_event_ops b

/-- Apply a prefix of writes. -/
def applyOps (ops : List Op) (s : Store6) : Store6 :=
  ops.foldl (fun st op => op.apply st) s

/-- Execute writes with a fault after `failAt` successful engine writes:
the failing write leaves the store as the already-issued writes made it
(`Except.error` carries that state). -/
def runOps : List Op → Nat → Store6 → Except Store6 Store6
  | [], _, s => .ok s
  | _ :: _, 0, s => .error s
  | op :: rest, k + 1, s => runOps rest k (op.apply s)

/-- `BlockStore::add_block` under the fault model: the duplicate check, then
the write sequence; `.ok (store, some hash)` reports the `NewBlock` event of
a fresh add, `.ok (store, none)` the duplicate no-op, `.error store` a
failed write with the store as it was left. -/
def add_block (s : Store6) (b : PrecomputedBlock) (failAt : Nat) :
    Except Store6 (Store6 × Option String) :=
  if (sget s "blocks" (.raw b.state_hash)).isSome then .ok (s, none)
  else
    match runOps (add_block_ops b) failAt s with
    | .error s2 => .error s2
    | .ok s2 => .ok (s2, some b.state_hash)

/-- The C6 block (a minimal fresh block). -/
def c6Block : PrecomputedBlock :=
  { state_hash := "3NC6", previous_state_hash := "3NPrev", blockchain_length := 7,
    global_slot_since_genesis := 9, epoch_count := 0, genesis_state_hash := "3NGen",
    block_creator := "cr", staged_ledger_hash := "jxC6", coinbase_receiver := "cr",
    coinbase_receiver_balance := none, supercharge_coinbase := false,
    commands_pre_diff := [], commands_post_diff := [], pre_diff_coinbase := .One none,
    post_diff_coinbase := none, snarks := [], accounts_created := ([], none),
    active_public_keys := ["cr"], all_public_keys := ["cr"] }

/-- The store state `add_block` surfaces on a failed write (`none` when no
write failed). -/
def add_block_err_state (s : Store6) (b : PrecomputedBlock) (failAt : Nat) :
    Option Store6 :=
  match add_block s b failAt with
  | .error s2 => some s2
  | .ok _ => none

/-- C6 counterexample: `add_block` is NOT atomic.  Starting from the empty
store, a failure after the very first write (the block record) surfaces an
error but leaves the store changed — the block record is present, so partial
success is recorded, contradicting the claim that a failed batch leaves the
store unchanged. -/
theorem c6_partial_write_survives :
    add_block_err_state ([] : Store6) c6Block 1
        = some (applyOps ((add_block_ops c6Block).take 1) ([] : Store6))
      ∧ applyOps ((add_block_ops c6Block).take 1) ([] : Store6) ≠ ([] : Store6)
      ∧ sget (applyOps ((add_block_ops c6Block).take 1) ([] : Store6)) "blocks"
          (.raw c6Block.state_hash) = some (.blockRecord c6Block.state_hash) :=
  ⟨by decide, by decide, by decide⟩

theorem runOps_error (ops : List Op) :
    ∀ (k : Nat) (s : Store6), k < ops.length →
      runOps ops k s = .error (applyOps (ops.take k) s) := by
  induction ops with
  | nil => intro k s hk; simp at hk
  | cons op rest ih =>
      intro k s hk
      match k with
      | 0 => rfl
      | Nat.succ j =>
          have hj : j < rest.length := by simpa using hk
          show runOps rest j (op.apply s) = _
          rw [ih j (op.apply s) hj]
          rfl

theorem runOps_ok (ops : List Op) :
    ∀ (k : Nat) (s : Store6), ops.length ≤ k → runOps ops k s = .ok (applyOps ops s) := by
  induction ops with
  | nil => intro k s _; rfl
  | cons op rest ih =>
      intro k s hk
      match k with
      | 0 => simp at hk
      | Nat.succ j =>
          have hj : rest.length ≤ j := by simpa using hk
          show runOps rest j (op.apply s) = _
          rw [ih j (op.apply s) hj]
          rfl

theorem lookup_filterkey_ne {k k0 : String × KeyT} (h : k ≠ k0) :
    ∀ l : List ((String × KeyT) × ValT),
      List.lookup k (List.filter (fun kv => ¬ kv.1 = k0) l) = List.lookup k l := by
  intro l
  induction l with
  | nil => rfl
  | cons kv rest ih =>
      obtain ⟨k1, v1⟩ := kv
      by_cases h1 : k1 = k0
      · have hk1 : (k == k1) = false := by
          simp only [beq_eq_false_iff_ne, ne_eq]
          intro hc; exact h (hc.trans h1)
        have hstep : List.filter (fun kv => ¬ kv.1 = k0) ((k1, v1) :: rest)
            = List.filter (fun kv => ¬ kv.1 = k0) rest := by
          simp [List.filter, h1]
        rw [hstep, ih]
        simp [List.lookup, hk1]
      · have hstep : List.filter (fun kv => ¬ kv.1 = k0) ((k1, v1) :: rest)
            = (k1, v1) :: List.filter (fun kv => ¬ kv.1 = k0) rest := by
          simp [List.filter, h1]
        rw [hstep]
        by_cases h2 : k = k1
        · have hk2 : (k == k1) = true := beq_iff_eq.mpr h2
          simp [List.lookup, hk2]
        · have hk2 : (k == k1) = false := by
            simp only [beq_eq_false_iff_ne, ne_eq]; exact h2
          simp only [List.lookup, hk2]
          exact ih

theorem lookup_rowput (l : List ((String × KeyT) × ValT)) (k0 k : String × KeyT) (v : ValT) :
    List.lookup k ((k0, v) :: List.filter (fun kv => ¬ kv.1 = k0) l)
      = if k = k0 then some v else List.lookup k l := by
  by_cases h : k = k0
  · have hb : (k == k0) = true := beq_iff_eq.mpr h
    simp [List.lookup, hb, h]
  · have hb : (k == k0) = false := by
      simp only [beq_eq_false_iff_ne, ne_eq]; exact h
    simp only [List.lookup, hb, if_neg h]
    exact lookup_filterkey_ne h l

theorem sget_sput_ne_cf {cf cf0 : String} (h : cf ≠ cf0) (s : Store6) (k : KeyT)
    (v : ValT) (key : KeyT) : sget (sput s cf k v) cf0 key = sget s cf0 key := by
  have h2 : ((cf0, key) : String × KeyT) ≠ (cf, k) := by
    intro hc; exact h (congrArg Prod.fst hc).symm
  show List.lookup ((cf0, key) : String × KeyT)
      (((cf, k), v) :: List.filter (fun kv => ¬ kv.1 = (cf, k)) s)
    = List.lookup ((cf0, key) : String × KeyT) s
  exact (lookup_rowput s (cf, k) (cf0, key) v).trans (if_neg h2)

theorem sget_opApply_ne_cf {op : Op} {cf0 : String} (h : op.cf ≠ cf0) (s : Store6)
    (key : KeyT) : sget (op.apply s) cf0 key = sget s cf0 key := by
  unfold Op.apply
  by_cases hg : op.guard s
  · rw [if_pos hg]
    exact sget_sput_ne_cf h s _ _ key
  · rw [if_neg hg]

theorem sget_applyOps_ne_cf {cf0 : String} :
    ∀ (ops : List Op), (∀ op ∈ ops, op.cf ≠ cf0) → ∀ (s : Store6) (key : KeyT),
      sget (applyOps ops s) cf0 key = sget s cf0 key := by
  intro ops
  induction ops with
  | nil => intro _ s key; rfl
  | cons op rest ih =>
      intro hall s key
      show sget (applyOps rest (op.apply s)) cf0 key = _
      rw [ih (fun o ho => hall o (List.mem_cons_of_mem op ho)) (op.apply s) key]
      exact sget_opApply_ne_cf (hall op (List.mem_cons_self op rest)) s key

theorem core_ops_not_events (b : PrecomputedBlock) :
    ∀ op ∈ add_block_core_ops b, op.cf ≠ "events" := by
  intro op hop
  unfold add_block_core_ops at hop
  rcases List.mem_append.mp hop with h | h
  · rcases List.mem_append.mp h with h2 | h2
    · fin_cases h2 <;> simp [putOp]
    · rcases List.mem_flatMap.mp h2 with ⟨pk, _, hpk⟩
      rcases List.mem_cons.mp hpk with h3 | h3
      · rw [h3]; simp [putOp]
      · rcases List.mem_cons.mp h3 with h4 | h4
        · rw [h4]; simp [putOp]
        · cases h4
  · fin_cases h <;> simp [putOp]

/-- C6: `BlockStore::add_block` is NOT a single atomic batch — it issues its
column-family writes one `put_cf` at a time.  Corrected behaviour: a
duplicate block is a no-op; a failure after `k` successful engine writes
surfaces an error with the store holding exactly the first `k` writes
(partial success persists); since the `NewBlock` event is written after all
core block writes, a failure at or before the end of the core sequence
leaves the `events` column family untouched; and with no failure all writes
land. -/
theorem c6_add_block_sequential (b : PrecomputedBlock) (s : Store6) (k : Nat) :
    (sget s "blocks" (.raw b.state_hash) ≠ none → add_block s b k = .ok (s, none))
      ∧ (sget s "blocks" (.raw b.state_hash) = none →
          (k < (add_block_ops b).length →
              add_block s b k = .error (applyOps ((add_block_ops b).take k) s)
                ∧ (k ≤ (add_block_core_ops b).length →
                    ∀ key : KeyT,
                      sget (applyOps ((add_block_ops b).take k) s) "events" key
                        = sget s "events" key))
            ∧ ((add_block_ops b).length ≤ k →
                add_block s b k
                  = .ok (applyOps (add_block_ops b) s, some b.state_hash))) := by
  constructor
  · intro hdup
    unfold add_block
    rw [if_pos (Option.ne_none_iff_isSome.mp hdup)]
  · intro hfresh
    have hcond : ¬ (sget s "blocks" (.raw b.state_hash)).isSome = true := by
      rw [hfresh]; simp
    constructor
    · intro hk
      constructor
      · unfold add_block
        rw [if_neg hcond, runOps_error (add_block_ops b) k s hk]
      · intro hk2 key
        apply sget_applyOps_ne_cf
        intro op hop
        have htake : (add_block_ops b).take k = (add_block_core_ops b).take k := by
          unfold add_block_ops
          exact List.take_append_of_le_length hk2
        rw [htake] at hop
        exact core_ops_not_events b op (List.take_subset k (add_block_core_ops b) hop)
    · intro hk
      unfold add_block
      rw [if_neg hcond, runOps_ok (add_block_ops b) k s hk]

/-- C6 witness: the corrected theorem at concrete inputs — a clean add of the
C6 block lands every write; a fault after the second write errors with the
two-write store; that partial store has an empty `events` column family. -/
theorem c6_add_block_sequential_witness :
    add_block ([] : Store6) c6Block 99
        = .ok (applyOps (add_block_ops c6Block) [], some c6Block.state_hash)
      ∧ add_block ([] : Store6) c6Block 2
          = .error (applyOps ((add_block_ops c6Block).take 2) [])
      ∧ sget (applyOps ((add_block_ops c6Block).take 2) ([] : Store6)) "events"
          (.raw "x") = none :=
  ⟨((c6_add_block_sequential c6Block [] 99).2 (by decide)).2 (by decide),
   (((c6_add_block_sequential c6Block [] 2).2 (by decide)).1 (by decide)).1,
   ((((c6_add_block_sequential c6Block [] 2).2 (by decide)).1 (by decide)).2
      (by decide) (.raw "x")).trans rfl⟩

/-! ### C7 — `account_balance` / `account_balance_sort` agreement
(`src/rust/src/store/account_store_impl.rs`) -/

/-- A key of the `account_balance_sort` column family: the 8-byte big-endian
balance prefix (a byte list) followed by the public key.  Because the prefix
width is fixed, RocksDB byte-lexicographic order on the concatenated bytes is
the lexicographic order on this pair. -/
abbrev SortKey := List Nat × PK

/-- Big-endian fixed-width byte encoding, `w` bytes, most significant first
(`to_be_bytes`). -/
def beBytes : Nat → Nat → List Nat
  | 0, _ => []
  | w + 1, b => b / 256 ^ w :: beBytes w (b % 256 ^ w)

/-- Decode a big-endian byte list (`from_be_bytes`). -/
def deBytes : List Nat → Nat
  | [] => 0
  | x :: rest => x * 256 ^ rest.length + deBytes rest

/-- Modelled from the spec: `u64_prefix_key` lives in `store/mod.rs`, not
under `src/`; per §4.5 it builds the sort key `\x7bbalance BE\x7d\x7bpk\x7d`. -/
def u64_prefix_key (balance : Nat) (pk : PK) : SortKey :=
  (beBytes 8 balance, pk)

/-- Byte-lexicographic strict order (RocksDB key order on raw bytes). -/
def bytesLt : List Nat → List Nat → Bool
  | _, [] => false
  | [], _ :: _ => true
  | x :: xs, y :: ys => x < y || (x = y && bytesLt xs ys)

/-- Sort-key order: prefix bytes first, ties broken by the public key. -/
def keyLe (k1 k2 : SortKey) : Bool :=
  bytesLt k1.1 k2.1 || (k1.1 = k2.1 && decide (k1.2 ≤ k2.2))

/-- `keyLe` as a relation. -/
def keyR (k1 k2 : SortKey) : Prop := keyLe k1 k2 = true

instance : DecidableRel keyR := fun k1 k2 =>
  inferInstanceAs (Decidable (keyLe k1 k2 = true))

/-- The account store: the `account_balance` rows (pk ↦ u64 balance) and the
`account_balance_sort` rows (a key set; the stored values are empty). -/
structure AccountStoreState where
  account_balance : List (PK × Nat)
  account_balance_sort : List SortKey
deriving DecidableEq, Repr

/-- `AccountStore::update_account_balance`: `none` deletes the balance row
and the sort row keyed by the (defaulted) current balance; `some balance`
deletes the stale sort row if the account had a balance, then puts the
balance row and the new sort row. -/
def update_account_balance (st : AccountStoreState) (pk : PK)
    (balance : Option Nat) : AccountStoreState :=
  match balance with
  | none =>
      let b := (List.lookup pk st.account_balance).getD 0
      { account_balance := st.account_balance.filter (fun kv => ¬ kv.1 = pk)
        account_balance_sort :=
          st.account_balance_sort.filter (fun k => ¬ k = u64_prefix_key b pk) }
  | some balance =>
      let sort1 :=
        match List.lookup pk st.account_balance with
        | some old =>
            st.account_balance_sort.filter (fun k => ¬ k = u64_prefix_key old pk)
        | none => st.account_balance_sort
      { account_balance :=
          (pk, balance) :: st.account_balance.filter (fun kv => ¬ kv.1 = pk)
        account_balance_sort :=
          u64_prefix_key balance pk
            :: sort1.filter (fun k => ¬ k = u64_prefix_key balance pk) }

/-- `AccountStore::account_balance_iterator` over the sort column family in
ascending key order (`IteratorMode::Start`); `.reverse` is the
`IteratorMode::End` traversal. -/
def account_balance_iterator (st : AccountStoreState) : List SortKey :=
  List.insertionSort keyR st.account_balance_sort

/-- Store states reachable through `update_account_balance` (balances are
u64 values). -/
inductive Reachable : AccountStoreState → Prop
  | init : Reachable ⟨[], []⟩
  | step (st : AccountStoreState) (pk : PK) (balance : Option Nat)
      (hb : ∀ v, balance = some v → v < U64MOD) :
      Reachable st → Reachable (update_account_balance st pk balance)

/-- Agreement invariant: every sort key carries the encoded balance of its
public key's balance row, and every balance row has its sort key present. -/
def SortAgree (st : AccountStoreState) : Prop :=
  (∀ k ∈ st.account_balance_sort, ∃ b, b < U64MOD ∧ k.1 = beBytes 8 b
      ∧ List.lookup k.2 st.account_balance = some b)
    ∧ ∀ pk b, List.lookup pk st.account_balance = some b →
        b < U64MOD ∧ u64_prefix_key b pk ∈ st.account_balance_sort

theorem length_beBytes : ∀ (w b : Nat), (beBytes w b).length = w := by
  intro w
  induction w with
  | zero => intro b; rfl
  | succ w ih => intro b; simp [beBytes, ih]

theorem deBytes_beBytes : ∀ (w b : Nat), b < 256 ^ w → deBytes (beBytes w b) = b := by
  intro w
  induction w with
  | zero =>
      intro b hb
      have hz : b = 0 := Nat.lt_one_iff.mp hb
      subst hz; rfl
  | succ w ih =>
      intro b hb
      have hM : 0 < 256 ^ w := Nat.pow_pos (by decide)
      have hr : b % 256 ^ w < 256 ^ w := Nat.mod_lt _ hM
      show b / 256 ^ w * 256 ^ (beBytes w (b % 256 ^ w)).length
          + deBytes (beBytes w (b % 256 ^ w)) = b
      rw [length_beBytes, ih _ hr]
      exact Nat.div_add_mod' b (256 ^ w)

theorem beBytes_inj {w b1 b2 : Nat} (h1 : b1 < 256 ^ w) (h2 : b2 < 256 ^ w)
    (h : beBytes w b1 = beBytes w b2) : b1 = b2 := by
  have hd := congrArg deBytes h
  rw [deBytes_beBytes w b1 h1, deBytes_beBytes w b2 h2] at hd
  exact hd

theorem lt_iff_divmod {M b1 b2 : Nat} (hM : 0 < M) :
    b1 < b2 ↔ (b1 / M < b2 / M ∨ (b1 / M = b2 / M ∧ b1 % M < b2 % M)) := by
  constructor
  · intro h
    have hq : b1 / M ≤ b2 / M := Nat.div_le_div_right (Nat.le_of_lt h)
    rcases Nat.lt_or_eq_of_le hq with hlt | heq
    · exact Or.inl hlt
    · refine Or.inr ⟨heq, ?_⟩
      have e1 : b1 = M * (b1 / M) + b1 % M := (Nat.div_add_mod b1 M).symm
      have e2 : b2 = M * (b2 / M) + b2 % M := (Nat.div_add_mod b2 M).symm
      rw [e1, e2, heq] at h
      exact Nat.lt_of_add_lt_add_left h
  · intro h
    rcases h with hlt | ⟨heq, hr⟩
    · calc b1 = M * (b1 / M) + b1 % M := (Nat.div_add_mod b1 M).symm
        _ < M * (b1 / M) + M := Nat.add_lt_add_left (Nat.mod_lt _ hM) _
        _ = M * (b1 / M + 1) := by ring
        _ ≤ M * (b2 / M) := Nat.mul_le_mul_left M (Nat.succ_le_of_lt hlt)
        _ ≤ M * (b2 / M) + b2 % M := Nat.le_add_right _ _
        _ = b2 := Nat.div_add_mod b2 M
    · calc b1 = M * (b1 / M) + b1 % M := (Nat.div_add_mod b1 M).symm
        _ = M * (b2 / M) + b1 % M := by rw [heq]
        _ < M * (b2 / M) + b2 % M := Nat.add_lt_add_left hr _
        _ = b2 := Nat.div_add_mod b2 M

theorem bytesLt_beBytes_iff : ∀ (w b1 b2 : Nat), b1 < 256 ^ w → b2 < 256 ^ w →
    (bytesLt (beBytes w b1) (beBytes w b2) = true ↔ b1 < b2) := by
  intro w
  induction w with
  | zero =>
      intro b1 b2 h1 h2
      have e1 : b1 = 0 := Nat.lt_one_iff.mp h1
      have e2 : b2 = 0 := Nat.lt_one_iff.mp h2
      subst e1; subst e2
      simp [beBytes, bytesLt]
  | succ w ih =>
      intro b1 b2 h1 h2
      have hM : 0 < 256 ^ w := Nat.pow_pos (by decide)
      have hr1 : b1 % 256 ^ w < 256 ^ w := Nat.mod_lt _ hM
      have hr2 : b2 % 256 ^ w < 256 ^ w := Nat.mod_lt _ hM
      have hstep : bytesLt (beBytes (w + 1) b1) (beBytes (w + 1) b2)
          = (decide (b1 / 256 ^ w < b2 / 256 ^ w)
            || (decide (b1 / 256 ^ w = b2 / 256 ^ w)
                && bytesLt (beBytes w (b1 % 256 ^ w)) (beBytes w (b2 % 256 ^ w)))) := rfl
      constructor
      · intro h
        rw [lt_iff_divmod hM]
        have h2b : (b1 / 256 ^ w < b2 / 256 ^ w
            ∨ (b1 / 256 ^ w = b2 / 256 ^ w
              ∧ bytesLt (beBytes w (b1 % 256 ^ w)) (beBytes w (b2 % 256 ^ w)) = true)) := by
          simpa only [hstep, Bool.or_eq_true, Bool.and_eq_true, decide_eq_true_eq] using h
        rcases h2b with hlt | ⟨heq, hb⟩
        · exact Or.inl hlt
        · exact Or.inr ⟨heq, (ih _ _ hr1 hr2).mp hb⟩
      · intro h
        rw [hstep]
        simp only [Bool.or_eq_true, Bool.and_eq_true, decide_eq_true_eq]
        rcases (lt_iff_divmod hM).mp h with hlt | ⟨heq, hr⟩
        · exact Or.inl hlt
        · exact Or.inr ⟨heq, (ih _ _ hr1 hr2).mpr hr⟩

theorem bytesLt_trans : ∀ (xs ys zs : List Nat),
    bytesLt xs ys = true → bytesLt ys zs = true → bytesLt xs zs = true := by
  intro xs
  induction xs with
  | nil =>
      intro ys zs h1 h2
      cases zs with
      | nil =>
          cases ys with
          | nil => exact h1
          | cons y ys' => exact absurd h2 (by simp [bytesLt])
      | cons z zs' => rfl
  | cons x xs' ih =>
      intro ys zs h1 h2
      cases ys with
      | nil => exact absurd h1 (by simp [bytesLt])
      | cons y ys' =>
          cases zs with
          | nil => exact absurd h2 (by simp [bytesLt])
          | cons z zs' =>
              have h1' : x < y ∨ (x = y ∧ bytesLt xs' ys' = true) := by
                simpa only [bytesLt, Bool.or_eq_true, Bool.and_eq_true,
                  decide_eq_true_eq] using h1
              have h2' : y < z ∨ (y = z ∧ bytesLt ys' zs' = true) := by
                simpa only [bytesLt, Bool.or_eq_true, Bool.and_eq_true,
                  decide_eq_true_eq] using h2
              show (decide (x < z) || (decide (x = z) && bytesLt xs' zs')) = true
              simp only [Bool.or_eq_true, Bool.and_eq_true, decide_eq_true_eq]
              rcases h1' with hxy | ⟨hxy, hxs⟩
              · rcases h2' with hyz | ⟨hyz, _⟩
                · exact Or.inl (Nat.lt_trans hxy hyz)
                · exact Or.inl (by rw [← hyz]; exact hxy)
              · rcases h2' with hyz | ⟨hyz, hys⟩
                · exact Or.inl (by rw [hxy]; exact hyz)
                · exact Or.inr ⟨hxy.trans hyz, ih ys' zs' hxs hys⟩

theorem bytesLt_total : ∀ (xs ys : List Nat),
    bytesLt xs ys = true ∨ xs = ys ∨ bytesLt ys xs = true := by
  intro xs
  induction xs with
  | nil =>
      intro ys
      cases ys with
      | nil => exact Or.inr (Or.inl rfl)
      | cons y ys' => exact Or.inl rfl
  | cons x xs' ih =>
      intro ys
      cases ys with
      | nil => exact Or.inr (Or.inr rfl)
      | cons y ys' =>
          rcases Nat.lt_trichotomy x y with hlt | heq | hgt
          · refine Or.inl ?_
            show (decide (x < y) || (decide (x = y) && bytesLt xs' ys')) = true
            simp [hlt]
          · rcases ih ys' with h | h | h
            · refine Or.inl ?_
              show (decide (x < y) || (decide (x = y) && bytesLt xs' ys')) = true
              simp [heq, h]
            · exact Or.inr (Or.inl (by rw [heq, h]))
            · refine Or.inr (Or.inr ?_)
              show (decide (y < x) || (decide (y = x) && bytesLt ys' xs')) = true
              simp [heq, h]
          · refine Or.inr (Or.inr ?_)
            show (decide (y < x) || (decide (y = x) && bytesLt ys' xs')) = true
            simp [hgt]

theorem keyR_trans (a b c : SortKey) : keyR a b → keyR b c → keyR a c := by
  intro h1 h2
  have h1' : bytesLt a.1 b.1 = true ∨ (a.1 = b.1 ∧ a.2 ≤ b.2) := by
    simpa only [keyR, keyLe, Bool.or_eq_true, Bool.and_eq_true,
      decide_eq_true_eq] using h1
  have h2' : bytesLt b.1 c.1 = true ∨ (b.1 = c.1 ∧ b.2 ≤ c.2) := by
    simpa only [keyR, keyLe, Bool.or_eq_true, Bool.and_eq_true,
      decide_eq_true_eq] using h2
  simp only [keyR, keyLe, Bool.or_eq_true, Bool.and_eq_true, decide_eq_true_eq]
  rcases h1' with hb1 | ⟨he1, hs1⟩
  · rcases h2' with hb2 | ⟨he2, hs2⟩
    · exact Or.inl (bytesLt_trans _ _ _ hb1 hb2)
    · exact Or.inl (by rw [← he2]; exact hb1)
  · rcases h2' with hb2 | ⟨he2, hs2⟩
    · exact Or.inl (by rw [he1]; exact hb2)
    · exact Or.inr ⟨he1.trans he2, le_trans hs1 hs2⟩

instance : IsTrans SortKey keyR := ⟨keyR_trans⟩

theorem keyR_total (a b : SortKey) : keyR a b ∨ keyR b a := by
  rcases bytesLt_total a.1 b.1 with h | h | h
  · refine Or.inl ?_
    simp only [keyR, keyLe, Bool.or_eq_true]
    exact Or.inl h
  · rcases le_total a.2 b.2 with hs | hs
    · refine Or.inl ?_
      simp only [keyR, keyLe, Bool.or_eq_true, Bool.and_eq_true, decide_eq_true_eq]
      exact Or.inr ⟨h, hs⟩
    · refine Or.inr ?_
      simp only [keyR, keyLe, Bool.or_eq_true, Bool.and_eq_true, decide_eq_true_eq]
      exact Or.inr ⟨h.symm, hs⟩
  · refine Or.inr ?_
    simp only [keyR, keyLe, Bool.or_eq_true]
    exact Or.inl h

instance : IsTotal SortKey keyR := ⟨keyR_total⟩

theorem lookup_balance_filter {k k0 : PK} (h : k ≠ k0) :
    ∀ l : List (PK × Nat),
      List.lookup k (List.filter (fun kv => ¬ kv.1 = k0) l) = List.lookup k l := by
  intro l
  induction l with
  | nil => rfl
  | cons kv rest ih =>
      obtain ⟨k1, v1⟩ := kv
      by_cases h1 : k1 = k0
      · have hk1 : (k == k1) = false := by
          simp only [beq_eq_false_iff_ne, ne_eq]
          intro hc; exact h (hc.trans h1)
        have hstep : List.filter (fun kv => ¬ kv.1 = k0) ((k1, v1) :: rest)
            = List.filter (fun kv => ¬ kv.1 = k0) rest := by
          simp [List.filter, h1]
        rw [hstep, ih]
        simp [List.lookup, hk1]
      · have hstep : List.filter (fun kv => ¬ kv.1 = k0) ((k1, v1) :: rest)
            = (k1, v1) :: List.filter (fun kv => ¬ kv.1 = k0) rest := by
          simp [List.filter, h1]
        rw [hstep]
        by_cases h2 : k = k1
        · have hk2 : (k == k1) = true := beq_iff_eq.mpr h2
          simp [List.lookup, hk2]
        · have hk2 : (k == k1) = false := by
            simp only [beq_eq_false_iff_ne, ne_eq]; exact h2
          simp only [List.lookup, hk2]
          exact ih

theorem lookup_balance_filter_self (k0 : PK) :
    ∀ l : List (PK × Nat),
      List.lookup k0 (List.filter (fun kv => ¬ kv.1 = k0) l) = none := by
  intro l
  induction l with
  | nil => rfl
  | cons kv rest ih =>
      obtain ⟨k1, v1⟩ := kv
      by_cases h1 : k1 = k0
      · have hstep : List.filter (fun kv => ¬ kv.1 = k0) ((k1, v1) :: rest)
            = List.filter (fun kv => ¬ kv.1 = k0) rest := by
          simp [List.filter, h1]
        rw [hstep]
        exact ih
      · have hstep : List.filter (fun kv => ¬ kv.1 = k0) ((k1, v1) :: rest)
            = (k1, v1) :: List.filter (fun kv => ¬ kv.1 = k0) rest := by
          simp [List.filter, h1]
        rw [hstep]
        have hk1 : (k0 == k1) = false := by
          simp only [beq_eq_false_iff_ne, ne_eq]
          intro hc; exact h1 hc.symm
        simp only [List.lookup, hk1]
        exact ih

theorem lookup_cons_self (k0 : PK) (v : Nat) (l : List (PK × Nat)) :
    List.lookup k0 ((k0, v) :: l) = some v := by
  simp [List.lookup]

theorem lookup_cons_ne {k k0 : PK} (h : k ≠ k0) (v : Nat) (l : List (PK × Nat)) :
    List.lookup k ((k0, v) :: l) = List.lookup k l := by
  have hb : (k == k0) = false := by
    simp only [beq_eq_false_iff_ne, ne_eq]; exact h
  simp only [List.lookup, hb]

theorem update_some_eq_some (st : AccountStoreState) (pk : PK) (v old : Nat)
    (h : List.lookup pk st.account_balance = some old) :
    update_account_balance st pk (some v)
      = { account_balance :=
            (pk, v) :: st.account_balance.filter (fun kv => ¬ kv.1 = pk)
          account_balance_sort := u64_prefix_key v pk
            :: (st.account_balance_sort.filter
                (fun k => ¬ k = u64_prefix_key old pk)).filter
              (fun k => ¬ k = u64_prefix_key v pk) } := by
  unfold update_account_balance
  rw [h]

theorem update_some_eq_none (st : AccountStoreState) (pk : PK) (v : Nat)
    (h : List.lookup pk st.account_balance = none) :
    update_account_balance st pk (some v)
      = { account_balance :=
            (pk, v) :: st.account_balance.filter (fun kv => ¬ kv.1 = pk)
          account_balance_sort := u64_prefix_key v pk
            :: st.account_balance_sort.filter
              (fun k => ¬ k = u64_prefix_key v pk) } := by
  unfold update_account_balance
  rw [h]

theorem sortAgree_update (st : AccountStoreState) (pk : PK) (balance : Option Nat)
    (hb : ∀ v, balance = some v → v < U64MOD) (ha : SortAgree st) :
    SortAgree (update_account_balance st pk balance) := by
  obtain ⟨fwd, bwd⟩ := ha
  cases balance with
  | none =>
      refine ⟨?_, ?_⟩
      · intro k hk
        have hk' : k ∈ List.filter
            (fun k => ¬ k = u64_prefix_key
              ((List.lookup pk st.account_balance).getD 0) pk)
            st.account_balance_sort := hk
        have hk1 := List.mem_filter.mp hk'
        have hkne : ¬ k = u64_prefix_key
            ((List.lookup pk st.account_balance).getD 0) pk :=
          of_decide_eq_true hk1.2
        obtain ⟨b, hbU, hkb, hlook⟩ := fwd k hk1.1
        by_cases hpk : k.2 = pk
        · exfalso
          apply hkne
          have hlk : List.lookup pk st.account_balance = some b := by
            rw [← hpk]; exact hlook
          rw [hlk]
          exact Prod.ext_iff.mpr ⟨hkb, hpk⟩
        · refine ⟨b, hbU, hkb, ?_⟩
          show List.lookup k.2
              (st.account_balance.filter (fun kv => ¬ kv.1 = pk)) = some b
          rw [lookup_balance_filter hpk]
          exact hlook
      · intro pk' b hl
        have hl' : List.lookup pk'
            (st.account_balance.filter (fun kv => ¬ kv.1 = pk)) = some b := hl
        by_cases hpk : pk' = pk
        · rw [hpk, lookup_balance_filter_self pk st.account_balance] at hl'
          cases hl'
        · rw [lookup_balance_filter hpk] at hl'
          obtain ⟨hbU, hmem⟩ := bwd pk' b hl'
          refine ⟨hbU, List.mem_filter.mpr ⟨hmem, decide_eq_true ?_⟩⟩
          intro hc
          exact hpk (congrArg Prod.snd hc)
  | some v =>
      have hvU : v < U64MOD := hb v rfl
      cases hold : List.lookup pk st.account_balance with
      | some old =>
          rw [update_some_eq_some st pk v old hold]
          refine ⟨?_, ?_⟩
          · intro k hk
            rcases List.mem_cons.mp hk with hkv | hkmem
            · refine ⟨v, hvU, ?_, ?_⟩
              · rw [hkv]
                rfl
              · rw [hkv]
                exact lookup_cons_self pk v _
            · have h2 := List.mem_filter.mp hkmem
              have h3 := List.mem_filter.mp h2.1
              have hkno : ¬ k = u64_prefix_key old pk := of_decide_eq_true h3.2
              obtain ⟨b, hbU, hkb, hlook⟩ := fwd k h3.1
              by_cases hpk : k.2 = pk
              · exfalso
                apply hkno
                have hlk : List.lookup pk st.account_balance = some b := by
                  rw [← hpk]; exact hlook
                have hbo : b = old := Option.some.inj (hlk.symm.trans hold)
                exact Prod.ext_iff.mpr ⟨by rw [hkb, hbo]; rfl, hpk⟩
              · refine ⟨b, hbU, hkb, ?_⟩
                show List.lookup k.2 ((pk, v)
                    :: st.account_balance.filter (fun kv => ¬ kv.1 = pk)) = some b
                rw [lookup_cons_ne hpk, lookup_balance_filter hpk]
                exact hlook
          · intro pk' b hl
            have hl' : List.lookup pk' ((pk, v)
                :: st.account_balance.filter (fun kv => ¬ kv.1 = pk)) = some b := hl
            by_cases hpk : pk' = pk
            · subst hpk
              have hv2 : some v = some b := by
                rw [← hl', lookup_cons_self]
              have hbv : b = v := (Option.some.inj hv2).symm
              subst hbv
              exact ⟨hvU, List.mem_cons_self _ _⟩
            · rw [lookup_cons_ne hpk, lookup_balance_filter hpk] at hl'
              obtain ⟨hbU, hmem⟩ := bwd pk' b hl'
              refine ⟨hbU, List.mem_cons_of_mem _
                (List.mem_filter.mpr ⟨List.mem_filter.mpr ⟨hmem, decide_eq_true ?_⟩,
                  decide_eq_true ?_⟩)⟩
              · intro hc; exact hpk (congrArg Prod.snd hc)
              · intro hc; exact hpk (congrArg Prod.snd hc)
      | none =>
          rw [update_some_eq_none st pk v hold]
          refine ⟨?_, ?_⟩
          · intro k hk
            rcases List.mem_cons.mp hk with hkv | hkmem
            · refine ⟨v, hvU, ?_, ?_⟩
              · rw [hkv]
                rfl
              · rw [hkv]
                exact lookup_cons_self pk v _
            · have h2 := List.mem_filter.mp hkmem
              obtain ⟨b, hbU, hkb, hlook⟩ := fwd k h2.1
              by_cases hpk : k.2 = pk
              · exfalso
                have hlk : List.lookup pk st.account_balance = some b := by
                  rw [← hpk]; exact hlook
                rw [hold] at hlk
                cases hlk
              · refine ⟨b, hbU, hkb, ?_⟩
                show List.lookup k.2 ((pk, v)
                    :: st.account_balance.filter (fun kv => ¬ kv.1 = pk)) = some b
                rw [lookup_cons_ne hpk, lookup_balance_filter hpk]
                exact hlook
          · intro pk' b hl
            have hl' : List.lookup pk' ((pk, v)
                :: st.account_balance.filter (fun kv => ¬ kv.1 = pk)) = some b := hl
            by_cases hpk : pk' = pk
            · subst hpk
              have hv2 : some v = some b := by
                rw [← hl', lookup_cons_self]
              have hbv : b = v := (Option.some.inj hv2).symm
              subst hbv
              exact ⟨hvU, List.mem_cons_self _ _⟩
            · rw [lookup_cons_ne hpk, lookup_balance_filter hpk] at hl'
              obtain ⟨hbU, hmem⟩ := bwd pk' b hl'
              refine ⟨hbU, List.mem_cons_of_mem _
                (List.mem_filter.mpr ⟨hmem, decide_eq_true ?_⟩)⟩
              intro hc; exact hpk (congrArg Prod.snd hc)

theorem reachable_sortAgree (st : AccountStoreState) (h : Reachable st) :
    SortAgree st := by
  induction h with
  | init =>
      refine ⟨?_, ?_⟩
      · intro k hk
        exact absurd hk (List.not_mem_nil k)
      · intro pk b hl
        cases hl
  | step st pk balance hb _ ih => exact sortAgree_update st pk balance hb ih

theorem sorted_iter_balances (st : AccountStoreState) (ha : SortAgree st) :
    ((account_balance_iterator st).map (fun k => deBytes k.1)).Pairwise
      (fun x y => x ≤ y) := by
  have hsorted : List.Pairwise keyR (account_balance_iterator st) :=
    List.sorted_insertionSort keyR st.account_balance_sort
  have hperm : (account_balance_iterator st).Perm st.account_balance_sort :=
    List.perm_insertionSort keyR st.account_balance_sort
  rw [List.pairwise_map]
  refine List.Pairwise.imp_of_mem ?_ hsorted
  intro a b hma hmb hr
  obtain ⟨b1, hb1U, ha1, _⟩ := ha.1 a (hperm.subset hma)
  obtain ⟨b2, hb2U, ha2, _⟩ := ha.1 b (hperm.subset hmb)
  have hU : (256 : Nat) ^ 8 = U64MOD := by decide
  have h1' : b1 < 256 ^ 8 := by rw [hU]; exact hb1U
  have h2' : b2 < 256 ^ 8 := by rw [hU]; exact hb2U
  have hr' : bytesLt a.1 b.1 = true ∨ (a.1 = b.1 ∧ a.2 ≤ b.2) := by
    simpa only [keyR, keyLe, Bool.or_eq_true, Bool.and_eq_true,
      decide_eq_true_eq] using hr
  rcases hr' with hbl | ⟨heq, _⟩
  · have hlt : b1 < b2 := (bytesLt_beBytes_iff 8 b1 b2 h1' h2').mp
      (by rw [← ha1, ← ha2]; exact hbl)
    rw [ha1, ha2, deBytes_beBytes 8 b1 h1', deBytes_beBytes 8 b2 h2']
    exact Nat.le_of_lt hlt
  · rw [heq]

/-- C7: at every reachable account-store state the `account_balance_sort`
column family agrees with `account_balance` — the balance embedded in each
sort key equals the stored balance of its public key and every balance row
has its sort key present; traversing the sort keys in reverse key order
(`IteratorMode::End`) yields balances in descending order; deleting an
account removes both its balance row and its sort row; and a balance change
removes the stale sort row, leaving exactly the new one for that key. -/
theorem c7_balance_sort_agreement (st : AccountStoreState) (h : Reachable st) :
    (∀ k ∈ st.account_balance_sort,
        List.lookup k.2 st.account_balance = some (deBytes k.1))
      ∧ (∀ pk b, List.lookup pk st.account_balance = some b →
          u64_prefix_key b pk ∈ st.account_balance_sort)
      ∧ ((account_balance_iterator st).map (fun k => deBytes k.1)).reverse.Pairwise
          (fun x y => y ≤ x)
      ∧ (∀ pk,
          List.lookup pk (update_account_balance st pk none).account_balance = none
            ∧ ∀ k ∈ (update_account_balance st pk none).account_balance_sort,
                k.2 ≠ pk)
      ∧ (∀ pk v, v < U64MOD →
          List.lookup pk
              (update_account_balance st pk (some v)).account_balance = some v
            ∧ u64_prefix_key v pk
                ∈ (update_account_balance st pk (some v)).account_balance_sort
            ∧ ∀ k ∈ (update_account_balance st pk (some v)).account_balance_sort,
                k.2 = pk → k = u64_prefix_key v pk) := by
  have ha := reachable_sortAgree st h
  refine ⟨?_, ?_, ?_, ?_, ?_⟩
  · intro k hk
    obtain ⟨b, hbU, hkb, hlook⟩ := ha.1 k hk
    have hU : (256 : Nat) ^ 8 = U64MOD := by decide
    have hb' : b < 256 ^ 8 := by rw [hU]; exact hbU
    rw [hkb, deBytes_beBytes 8 b hb']
    exact hlook
  · intro pk b hl
    exact (ha.2 pk b hl).2
  · rw [List.pairwise_reverse]
    exact sorted_iter_balances st ha
  · intro pk
    have hst' : SortAgree (update_account_balance st pk none) :=
      sortAgree_update st pk none (fun v hv => by cases hv) ha
    constructor
    · exact lookup_balance_filter_self pk st.account_balance
    · intro k hk hc
      obtain ⟨b, _, _, hlook⟩ := hst'.1 k hk
      rw [hc] at hlook
      have hnone : List.lookup pk
          (update_account_balance st pk none).account_balance = none :=
        lookup_balance_filter_self pk st.account_balance
      rw [hnone] at hlook
      cases hlook
  · intro pk v hv
    have hst' : SortAgree (update_account_balance st pk (some v)) :=
      sortAgree_update st pk (some v) (fun w hw => by cases hw; exact hv) ha
    have hlv : List.lookup pk
        (update_account_balance st pk (some v)).account_balance = some v := by
      show List.lookup pk ((pk, v)
          :: st.account_balance.filter (fun kv => ¬ kv.1 = pk)) = some v
      exact lookup_cons_self pk v _
    refine ⟨hlv, (hst'.2 pk v hlv).2, ?_⟩
    intro k hk hkpk
    obtain ⟨b, hbU, hkb, hlook⟩ := hst'.1 k hk
    rw [hkpk, hlv] at hlook
    have hbv : v = b := Option.some.inj hlook
    exact Prod.ext_iff.mpr ⟨by rw [hkb, ← hbv]; rfl, hkpk⟩

/-- C7 witness: the agreement theorem at the reachable one-account store
obtained by setting the balance of `pkA` to 5 — the sort key for balance 5
is present. -/
theorem c7_balance_sort_agreement_witness :
    u64_prefix_key 5 "pkA"
      ∈ (update_account_balance ⟨[], []⟩ "pkA" (some 5)).account_balance_sort :=
  (c7_balance_sort_agreement (update_account_balance ⟨[], []⟩ "pkA" (some 5))
      (Reachable.step ⟨[], []⟩ "pkA" (some 5)
        (fun v hv => by cases hv; decide) Reachable.init)).2.1
    "pkA" 5 (by decide)
